import Mathlib

/-!
The TGA writer of convert-png-to-idtech3-tga.

A shallow embedding of `write_tga_rle` (and the helpers it calls) from
`src/convert-png-to-idtech3-tga.c`, followed by theorems about it.

Conventions of the embedding

* A byte is a `Nat`; a buffer is a `List Nat`; a pointer into a buffer is an
  offset.  Every load and store is bounds-checked and answers
  `TgaError.MemoryFault` when the offset is outside the buffer, so that a result
  `.ok _` is also a statement of memory safety.
* Machine arithmetic is written with the explicit reductions `uint8_t`,
  `uint16_t`, `uint32_t`, `size_t`.  `size_t` is taken to be 64 bits wide.
* Loops are structurally recursive on a fuel argument and answer
  `TgaError.LoopBound` when the fuel runs out; the callers pass the fuel and the
  theorems show that it is never exhausted.
* The C library is a parameter: `Env` says what `malloc` and `fopen` answer, and
  a `FILE` records how many further bytes its device accepts.
-/

namespace TgaRle

/-! ## Machine integers -/

/-- Conversion to `uint8_t`. -/
def uint8_t (n : Nat) : Nat := n % 256

/-- Conversion to `uint16_t`. -/
def uint16_t (n : Nat) : Nat := n % 65536

/-- Conversion to `uint32_t`. -/
def uint32_t (n : Nat) : Nat := n % 4294967296

/-- Conversion to `size_t` (64 bits). -/
def size_t (n : Nat) : Nat := n % 18446744073709551616

/-- Unsigned 32-bit subtraction, wrapping below zero. -/
def uint32_sub (a b : Nat) : Nat := (a + 4294967296 - b % 4294967296) % 4294967296

/-! ## Errors, streams, memory -/

/-- Ways in which `write_tga_rle` does not return 1.  The first three are the
three `fprintf(stderr, ...); return 0;` exits of the function, named as in the
specification.  `MemoryFault` is an access outside a buffer (undefined behaviour
in C) and `LoopBound` is a loop of the embedding running out of fuel. -/
inductive TgaError where
  | DimensionTooLarge
  | OutOfMemory
  | OutputOpenFailed
  | MemoryFault
  | LoopBound
  deriving DecidableEq, Repr

/-- An output stream: the bytes its device has accepted so far, and the number of
further bytes it will accept (`none`: any number).  A byte written when no room
is left is lost; this is a failed write. -/
structure FILE where
  bytes : List Nat
  room : Option Nat
  deriving DecidableEq, Repr

/-- One byte sent to the stream. -/
def FILE.put_byte (b : Nat) (fp : FILE) : FILE :=
  match fp.room with
  | none => { fp with bytes := fp.bytes ++ [b] }
  | some 0 => fp
  | some (r + 1) => { bytes := fp.bytes ++ [b], room := some r }

/-- A sequence of bytes sent to the stream, first to last. -/
def FILE.put_bytes : List Nat → FILE → FILE
  | [], fp => fp
  | b :: bs, fp => FILE.put_bytes bs (fp.put_byte b)

/-- The call `fputc(c, fp)`: `c` is converted to `unsigned char` and written.  The
source never looks at the value `fputc` returns, so only the stream is kept. -/
def fputc (c : Nat) (fp : FILE) : FILE :=
  fp.put_byte (uint8_t c)

/-- Checked read of `n` bytes at offset `off`. -/
def read_bytes (mem : List Nat) (off n : Nat) : Except TgaError (List Nat) :=
  if off + n ≤ mem.length then .ok ((mem.drop off).take n) else .error .MemoryFault

/-- Checked load `mem[off]`. -/
def load_byte (mem : List Nat) (off : Nat) : Except TgaError Nat :=
  match mem[off]? with
  | some b => .ok b
  | none => .error .MemoryFault

/-- Checked store `mem[off] = v`. -/
def store_byte (mem : List Nat) (off v : Nat) : Except TgaError (List Nat) :=
  if off < mem.length then .ok (mem.set off v) else .error .MemoryFault

/-- The call `fwrite(mem + off, size, nmemb, fp)`: the `size * nmemb` bytes at
`off` are read and sent to the stream.  The bytes read are returned too, next to
the stream; the source ignores the value `fwrite` returns. -/
def fwrite (mem : List Nat) (off size nmemb : Nat) (fp : FILE) :
    Except TgaError (List Nat × FILE) :=
  match read_bytes mem off (size * nmemb) with
  | .ok data => .ok (data, fp.put_bytes data)
  | .error e => .error e

/-- Source lines 7-12: the two bytes of `value`, low byte first, written by one
`fwrite` from a local array (which cannot fault). -/
def write_le16 (fp : FILE) (value : Nat) : FILE :=
  let bytes0 := uint8_t (value &&& 0xFF)
  let bytes1 := uint8_t ((value >>> 8) &&& 0xFF)
  fp.put_bytes [bytes0, bytes1]

/-- Source lines 129-131: `memcmp` of the `bpp` bytes at pixel `a` and at pixel
`b`.  Both ranges are read whole. -/
def pixels_equal (pixels : List Nat) (a b bpp : Nat) : Except TgaError Bool :=
  match read_bytes pixels (size_t (a * bpp)) bpp with
  | .error e => .error e
  | .ok x =>
    match read_bytes pixels (size_t (b * bpp)) bpp with
    | .error e => .error e
    | .ok y => .ok (decide (x = y))

/-! ## The row transform (source lines 147-159) -/

/-- The two buffers alive during the transform: the caller's `rgba_top_left`,
read through a pointer to `const`, and the block `pixels` from `malloc`. -/
structure Heap where
  rgba_top_left : List Nat
  pixels : List Nat
  deriving DecidableEq, Repr

/-- Source lines 154-157: the four assignments `dst[k] = src[j]`, where `src` is
an offset into `rgba_top_left` and `dst` an offset into `pixels`. -/
def swizzle_pixel (src dst : Nat) (m : Heap) : Except TgaError Heap := do
  let v0 ← load_byte m.rgba_top_left (src + 2)
  let p0 ← store_byte m.pixels (dst + 0) v0
  let v1 ← load_byte m.rgba_top_left (src + 1)
  let p1 ← store_byte p0 (dst + 1) v1
  let v2 ← load_byte m.rgba_top_left (src + 0)
  let p2 ← store_byte p1 (dst + 2) v2
  let v3 ← load_byte m.rgba_top_left (src + 3)
  let p3 ← store_byte p2 (dst + 3) v3
  pure { m with pixels := p3 }

/-- Source lines 151-158: the loop over `x`. -/
def column_loop (width bpp src_row dst_row : Nat) : Nat → Nat → Heap → Except TgaError Heap
  | 0, _, _ => .error .LoopBound
  | fuel + 1, x, m =>
    if x < width then
      let src := src_row + size_t (x * bpp)
      let dst := dst_row + size_t (x * bpp)
      match swizzle_pixel src dst m with
      | .error e => .error e
      | .ok m1 => column_loop width bpp src_row dst_row fuel (uint32_t (x + 1)) m1
    else .ok m

/-- Source lines 147-159: the loop over `y`. -/
def row_loop (width height bpp : Nat) : Nat → Nat → Heap → Except TgaError Heap
  | 0, _, _ => .error .LoopBound
  | fuel + 1, y, m =>
    if y < height then
      let src_y := uint32_sub (uint32_sub height 1) y
      let src_row := size_t (size_t (src_y * width) * bpp)
      let dst_row := size_t (size_t (y * width) * bpp)
      match column_loop width bpp src_row dst_row (width + 1) 0 m with
      | .error e => .error e
      | .ok m1 => row_loop width height bpp fuel (uint32_t (y + 1)) m1
    else .ok m

/-! ## The header (source lines 168-179) -/

/-- Source lines 168-179: six `fputc` and six `write_le16`, in source order. -/
def write_header (fp : FILE) (width height : Nat) : FILE :=
  let fp := fputc 0 fp
  let fp := fputc 0 fp
  let fp := fputc 10 fp
  let fp := write_le16 fp 0
  let fp := write_le16 fp 0
  let fp := fputc 0 fp
  let fp := write_le16 fp 0
  let fp := write_le16 fp 0
  let fp := write_le16 fp (uint16_t width)
  let fp := write_le16 fp (uint16_t height)
  let fp := fputc 32 fp
  fputc 8 fp

/-! ## The packing loop (source lines 181-208) -/

/-- Record of one iteration of the packing loop, kept next to the stream: which
branch wrote the packet, the value of `i`, the value of `run` or `raw`, the byte
given to `fputc` after its conversion to `uint8_t`, and the bytes `fwrite` read. -/
structure Packet where
  is_run : Bool
  start : Nat
  len : Nat
  header : Nat
  payload : List Nat
  deriving DecidableEq, Repr

/-- Source lines 183-187: the loop that grows `run`.  The three conjuncts are
evaluated left to right, `pixels_equal` only when the first two hold. -/
def run_scan (pixels : List Nat) (pixel_count bpp i : Nat) : Nat → Nat → Except TgaError Nat
  | 0, _ => .error .LoopBound
  | fuel + 1, run =>
    if size_t (i + run) < pixel_count ∧ run < 128 then
      match pixels_equal pixels i (size_t (i + run)) bpp with
      | .error e => .error e
      | .ok true => run_scan pixels pixel_count bpp i fuel (size_t (run + 1))
      | .ok false => .ok run
    else .ok run

/-- Source lines 196-203: the loop that grows `raw`, with its `break`. -/
def raw_scan (pixels : List Nat) (pixel_count bpp i : Nat) : Nat → Nat → Except TgaError Nat
  | 0, _ => .error .LoopBound
  | fuel + 1, raw =>
    if size_t (i + raw) < pixel_count ∧ raw < 128 then
      if size_t (size_t (i + raw) + 1) < pixel_count then
        match pixels_equal pixels (size_t (i + raw)) (size_t (size_t (i + raw) + 1)) bpp with
        | .error e => .error e
        | .ok true => .ok raw
        | .ok false => raw_scan pixels pixel_count bpp i fuel (size_t (raw + 1))
      else raw_scan pixels pixel_count bpp i fuel (size_t (raw + 1))
    else .ok raw

/-- Source lines 181-208: the outer loop.  The state is `i`, the stream and the
record of the packets written so far. -/
def rle_loop (pixels : List Nat) (pixel_count bpp : Nat) :
    Nat → Nat → FILE → List Packet → Except TgaError (Nat × FILE × List Packet)
  | 0, _, _, _ => .error .LoopBound
  | fuel + 1, i, fp, log =>
    if i < pixel_count then
      match run_scan pixels pixel_count bpp i 128 1 with
      | .error e => .error e
      | .ok run =>
        if run ≥ 2 then
          let header := uint8_t (0x80 ||| size_t (run + 18446744073709551616 - 1))
          let fp1 := fputc header fp
          match fwrite pixels (size_t (i * bpp)) bpp 1 fp1 with
          | .error e => .error e
          | .ok (data, fp2) =>
            rle_loop pixels pixel_count bpp fuel (size_t (i + run)) fp2
              (log ++ [⟨true, i, run, header, data⟩])
        else
          match raw_scan pixels pixel_count bpp i 128 1 with
          | .error e => .error e
          | .ok raw =>
            let header := uint8_t (size_t (raw + 18446744073709551616 - 1))
            let fp1 := fputc header fp
            match fwrite pixels (size_t (i * bpp)) bpp raw fp1 with
            | .error e => .error e
            | .ok (data, fp2) =>
              rle_loop pixels pixel_count bpp fuel (size_t (i + raw)) fp2
                (log ++ [⟨false, i, raw, header, data⟩])
    else .ok (i, fp, log)

/-! ## write_tga_rle (source lines 133-213) -/

/-- What the C library answers during one call of `write_tga_rle`.
`heap`: `none` when `malloc` returns `NULL`, otherwise the (indeterminate)
content of the block it returns, byte by byte.  `sink`: `none` when
`fopen(path, "wb")` returns `NULL`, otherwise the room of the stream it opens. -/
structure Env where
  heap : Option (Nat → Nat)
  sink : Option (Option Nat)

/-- What a call that returns 1 leaves behind: the stream at `fclose`, the two
buffers as they were after the row transform, the value of `i` when the packing
loop stopped, and the record of the packets. -/
structure Output where
  file : FILE
  mem : Heap
  last_i : Nat
  packets : List Packet

/-- Source lines 133-213.  `.ok _` is `return 1`; the errors `DimensionTooLarge`,
`OutOfMemory` and `OutputOpenFailed` are the three `return 0`. -/
def write_tga_rle (env : Env) (rgba_top_left : List Nat) (width height : Nat) :
    Except TgaError Output :=
  if width > 65535 ∨ height > 65535 then .error .DimensionTooLarge
  else
    let bpp := 4
    let pixel_count := size_t (size_t width * size_t height)
    match env.heap with
    | none => .error .OutOfMemory
    | some junk =>
      let pixels := (List.range (size_t (pixel_count * bpp))).map junk
      match row_loop width height bpp (height + 1) 0 ⟨rgba_top_left, pixels⟩ with
      | .error e => .error e
      | .ok m =>
        match env.sink with
        | none => .error .OutputOpenFailed
        | some room =>
          let fp := write_header ⟨[], room⟩ width height
          match rle_loop m.pixels pixel_count bpp (pixel_count + 1) 0 fp [] with
          | .error e => .error e
          | .ok (i, fp1, log) => .ok ⟨fp1, m, i, log⟩

/-! ## The loader and main (source lines 14-127 and 215-236) -/

/-- Ways in which `load_png_rgba` returns 0, one for each message it prints
before `return 0`. -/
inductive LoadError where
  | OpenFailed
  | NotPng
  | ReadStruct
  | InfoStruct
  | LibpngError
  | OutOfMemory
  | RowFormat
  deriving DecidableEq, Repr

/-- What the C library and libpng answer during one call of `load_png_rgba`.
`opened`: `fopen(path, "rb")` is not `NULL`.  `signature`: eight bytes were read
and `png_sig_cmp` accepts them.  `read_struct`, `info_struct`: the two libpng
objects were created.  `info_fails`: libpng jumps back to the `setjmp` from one
of the calls before the allocations.  `width`, `height`, `rowbytes`: what
`png_get_image_width`, `png_get_image_height` and `png_get_rowbytes` return.
`pixels`: `none` when the first `malloc` returns `NULL`, otherwise the content
of the block once `png_read_image` has filled it.  `row_pointers`: the second
`malloc` is not `NULL`.  `image_fails`: libpng jumps back to the `setjmp` from
`png_read_image` or `png_read_end`. -/
structure PngEnv where
  opened : Bool
  signature : Bool
  read_struct : Bool
  info_struct : Bool
  info_fails : Bool
  width : Nat
  height : Nat
  rowbytes : Nat
  pixels : Option (Nat → Nat)
  row_pointers : Bool
  image_fails : Bool

/-- Source lines 14-127.  `.ok (pixels, w, h)` is `return 1` with the three
output parameters set; an error is `return 0`. -/
def load_png_rgba (e : PngEnv) : Except LoadError (List Nat × Nat × Nat) :=
  if e.opened = false then .error .OpenFailed
  else if e.signature = false then .error .NotPng
  else if e.read_struct = false then .error .ReadStruct
  else if e.info_struct = false then .error .InfoStruct
  else if e.info_fails = true then .error .LibpngError
  else
    let width := uint32_t e.width
    let height := uint32_t e.height
    let rowbytes := size_t e.rowbytes
    match e.pixels with
    | none => .error .OutOfMemory
    | some content =>
      if e.row_pointers = false then .error .OutOfMemory
      else if e.image_fails = true then .error .LibpngError
      else if rowbytes ≠ size_t (uint32_t (width * 4)) then .error .RowFormat
      else .ok ((List.range (size_t (rowbytes * height))).map content, width, height)

/-- The two functions `main` calls. -/
inductive Call where
  | load_png_rgba
  | write_tga_rle
  deriving DecidableEq, Repr

/-- What one run of `main` leaves behind: the value it returns and the calls it
made, in order. -/
structure MainRun where
  exit_code : Nat
  calls : List Call
  deriving DecidableEq, Repr

/-- Source lines 215-236. -/
def main (argc : Int) (png : PngEnv) (env : Env) : MainRun :=
  if argc ≠ 3 then ⟨1, []⟩
  else
    match load_png_rgba png with
    | .error _ => ⟨1, [Call.load_png_rgba]⟩
    | .ok (pixels, width, height) =>
      match write_tga_rle env pixels width height with
      | .error _ => ⟨1, [Call.load_png_rgba, Call.write_tga_rle]⟩
      | .ok _ => ⟨0, [Call.load_png_rgba, Call.write_tga_rle]⟩

/-! ## Reference decoder -/

/-- The reference Targa RLE decoder, written from the words of the
specification: read a header byte `h`, let `n = (h & 0x7F) + 1`; if `h` has bit
`0x80` set read one 4-byte pixel and output it `n` times, otherwise read and
output `n` 4-byte pixels; repeat until the stream is exhausted.  `none` when the
stream ends inside a packet. -/
def reference_decode : Nat → List Nat → Option (List Nat)
  | _, [] => some []
  | 0, _ :: _ => none
  | fuel + 1, h :: rest =>
    let n := (h &&& 0x7F) + 1
    if h &&& 0x80 ≠ 0 then
      if 4 ≤ rest.length then
        (reference_decode fuel (rest.drop 4)).map
          (fun out => (List.replicate n (rest.take 4)).flatten ++ out)
      else none
    else
      if 4 * n ≤ rest.length then
        (reference_decode fuel (rest.drop (4 * n))).map (fun out => rest.take (4 * n) ++ out)
      else none

/-! ## Auxiliary notions used by the statements -/

/-- Pixel `k` of a buffer of 4-byte pixels: the four bytes at offset `4 * k`. -/
def px (pixels : List Nat) (k : Nat) : List Nat := (pixels.drop (k * 4)).take 4

/-- Bytes of a packet as they go to the stream: the header byte, then the payload. -/
def Packet.bytes (p : Packet) : List Nat := p.header :: p.payload

/-- Byte stream of a sequence of packets. -/
def packet_stream : List Packet → List Nat
  | [] => []
  | p :: ps => p.bytes ++ packet_stream ps

/-- What the two scans establish about the packet written at `p.start`, in terms
of the pixels of the buffer `P` of `N` pixels. -/
def Packet.sound (P : List Nat) (N : Nat) (p : Packet) : Prop :=
  p.start + p.len ≤ N ∧ p.len ≤ 128 ∧
  (p.is_run = true →
    2 ≤ p.len ∧ p.header = 127 + p.len ∧ p.payload = px P p.start ∧
    (∀ k, k < p.len → px P (p.start + k) = px P p.start) ∧
    (p.len = 128 ∨ p.start + p.len = N ∨ px P (p.start + p.len) ≠ px P p.start)) ∧
  (p.is_run = false →
    1 ≤ p.len ∧ p.header = p.len - 1 ∧
    p.payload = (P.drop (p.start * 4)).take (4 * p.len) ∧
    (∀ k, k < p.len → p.start + k + 1 < N → px P (p.start + k) ≠ px P (p.start + k + 1)) ∧
    (p.len = 128 ∨ p.start + p.len = N ∨
      (p.start + p.len + 1 < N ∧ px P (p.start + p.len) = px P (p.start + p.len + 1))))

/-- The packets tile the index range from `i` to `N`: each starts where the one
before it ended, each covers at least one pixel, and the last ends at `N`. -/
def chained : Nat → List Packet → Nat → Prop
  | i, [], N => i = N
  | i, p :: ps, N => p.start = i ∧ 1 ≤ p.len ∧ chained (i + p.len) ps N

/-- Pixel `(y, x)` of the output buffer `pix` holds the bytes of pixel
`(H - 1 - y, x)` of the input `rgba`, with the first and third byte exchanged. -/
def pixel_done (rgba : List Nat) (W H : Nat) (pix : List Nat) (y x : Nat) : Prop :=
  pix[(y * W + x) * 4]? = rgba[((H - 1 - y) * W + x) * 4 + 2]? ∧
  pix[(y * W + x) * 4 + 1]? = rgba[((H - 1 - y) * W + x) * 4 + 1]? ∧
  pix[(y * W + x) * 4 + 2]? = rgba[((H - 1 - y) * W + x) * 4]? ∧
  pix[(y * W + x) * 4 + 3]? = rgba[((H - 1 - y) * W + x) * 4 + 3]?

/-- The 18 header bytes for a width and a height below 65536. -/
def tga_header (W H : Nat) : List Nat :=
  [0, 0, 10, 0, 0, 0, 0, 0, 0, 0, 0, 0, W % 256, W / 256, H % 256, H / 256, 32, 8]

/-! ## Machine arithmetic and streams: basic facts -/

theorem size_t_eq {n : Nat} (h : n < 18446744073709551616) : size_t n = n :=
  Nat.mod_eq_of_lt h

theorem uint32_t_eq {n : Nat} (h : n < 4294967296) : uint32_t n = n :=
  Nat.mod_eq_of_lt h

theorem put_bytes_append (a b : List Nat) (fp : FILE) :
    FILE.put_bytes (a ++ b) fp = FILE.put_bytes b (FILE.put_bytes a fp) := by
  induction a generalizing fp with
  | nil => rfl
  | cons x xs ih => simp [FILE.put_bytes, ih]

theorem put_bytes_unbounded (a bs : List Nat) :
    FILE.put_bytes a ⟨bs, none⟩ = ⟨bs ++ a, none⟩ := by
  induction a generalizing bs with
  | nil => simp [FILE.put_bytes]
  | cons x xs ih => simp [FILE.put_bytes, FILE.put_byte, ih]

theorem fputc_eq (c : Nat) (fp : FILE) : fputc c fp = FILE.put_bytes [uint8_t c] fp := rfl

/-! ## The scans of the packing loop -/

theorem read_bytes_pixel {P : List Nat} {N k : Nat} (hP : P.length = N * 4) (hk : k < N) :
    read_bytes P (k * 4) 4 = .ok (px P k) := by
  unfold read_bytes px
  rw [if_pos (by omega)]

theorem pixels_equal_ok {P : List Nat} {N a b : Nat} (hP : P.length = N * 4)
    (hN : N ≤ 4294836225) (ha : a < N) (hb : b < N) :
    pixels_equal P a b 4 = .ok (decide (px P a = px P b)) := by
  unfold pixels_equal
  rw [size_t_eq (by omega), size_t_eq (by omega), read_bytes_pixel hP ha, read_bytes_pixel hP hb]

theorem run_scan_spec {P : List Nat} {N i : Nat} (hP : P.length = N * 4)
    (hN : N ≤ 4294836225) (hi : i < N) :
    ∀ (fuel run : Nat), 1 ≤ run → run ≤ 128 → i + run ≤ N → 128 < fuel + run →
      (∀ k, k < run → px P (i + k) = px P i) →
      ∃ r, run_scan P N 4 i fuel run = .ok r ∧ run ≤ r ∧ r ≤ 128 ∧ i + r ≤ N ∧
        (∀ k, k < r → px P (i + k) = px P i) ∧
        (r = 128 ∨ i + r = N ∨ px P (i + r) ≠ px P i) := by
  intro fuel
  induction fuel with
  | zero => intro run _ h2 _ h4; omega
  | succ fuel ih =>
    intro run h1 h2 h3 h4 hrun
    unfold run_scan
    rw [size_t_eq (by omega)]
    by_cases hc : i + run < N ∧ run < 128
    · rw [if_pos hc, pixels_equal_ok hP hN hi hc.1]
      by_cases he : px P i = px P (i + run)
      · rw [decide_eq_true he]
        simp only []
        rw [size_t_eq (by omega)]
        obtain ⟨r, hr, hle, hrest⟩ :=
          ih (run + 1) (by omega) (by omega) (by omega) (by omega) (by
            intro k hk
            by_cases hk2 : k < run
            · exact hrun k hk2
            · have : k = run := by omega
              subst this
              exact he.symm)
        exact ⟨r, hr, by omega, hrest⟩
      · rw [decide_eq_false he]
        exact ⟨run, rfl, le_refl _, h2, h3, hrun, Or.inr (Or.inr (fun h => he h.symm))⟩
    · rw [if_neg hc]
      refine ⟨run, rfl, le_refl _, h2, h3, hrun, ?_⟩
      by_cases h128 : run = 128
      · exact Or.inl h128
      · exact Or.inr (Or.inl (by omega))

theorem raw_scan_spec {P : List Nat} {N i : Nat} (hP : P.length = N * 4)
    (hN : N ≤ 4294836225) :
    ∀ (fuel raw : Nat), 1 ≤ raw → raw ≤ 128 → i + raw ≤ N → 128 < fuel + raw →
      (∀ k, 1 ≤ k → k < raw → i + k + 1 < N → px P (i + k) ≠ px P (i + k + 1)) →
      ∃ r, raw_scan P N 4 i fuel raw = .ok r ∧ raw ≤ r ∧ r ≤ 128 ∧ i + r ≤ N ∧
        (∀ k, 1 ≤ k → k < r → i + k + 1 < N → px P (i + k) ≠ px P (i + k + 1)) ∧
        (r = 128 ∨ i + r = N ∨ (i + r + 1 < N ∧ px P (i + r) = px P (i + r + 1))) := by
  intro fuel
  induction fuel with
  | zero => intro raw _ h2 _ h4; omega
  | succ fuel ih =>
    intro raw h1 h2 h3 h4 hraw
    unfold raw_scan
    rw [size_t_eq (show i + raw < 18446744073709551616 by omega),
      size_t_eq (show i + raw + 1 < 18446744073709551616 by omega)]
    by_cases hc : i + raw < N ∧ raw < 128
    · rw [if_pos hc]
      have hstep : ∀ (hne : i + raw + 1 < N → px P (i + raw) ≠ px P (i + raw + 1)),
          ∃ r, raw_scan P N 4 i fuel (size_t (raw + 1)) = .ok r ∧ raw ≤ r ∧ r ≤ 128 ∧
            i + r ≤ N ∧
            (∀ k, 1 ≤ k → k < r → i + k + 1 < N → px P (i + k) ≠ px P (i + k + 1)) ∧
            (r = 128 ∨ i + r = N ∨ (i + r + 1 < N ∧ px P (i + r) = px P (i + r + 1))) := by
        intro hne
        rw [size_t_eq (by omega)]
        obtain ⟨r, hr, hle, hrest⟩ :=
          ih (raw + 1) (by omega) (by omega) (by omega) (by omega) (by
            intro k hk1 hk hkN
            by_cases hk2 : k < raw
            · exact hraw k hk1 hk2 hkN
            · have : k = raw := by omega
              subst this
              exact hne hkN)
        exact ⟨r, hr, by omega, hrest⟩
      by_cases hn : i + raw + 1 < N
      · rw [if_pos hn, pixels_equal_ok hP hN hc.1 hn]
        by_cases he : px P (i + raw) = px P (i + raw + 1)
        · rw [decide_eq_true he]
          exact ⟨raw, rfl, le_refl _, h2, h3, hraw, Or.inr (Or.inr ⟨hn, he⟩)⟩
        · rw [decide_eq_false he]
          exact hstep (fun _ => he)
      · rw [if_neg hn]
        exact hstep (fun h => absurd h hn)
    · rw [if_neg hc]
      refine ⟨raw, rfl, le_refl _, h2, h3, hraw, ?_⟩
      by_cases h128 : raw = 128
      · exact Or.inl h128
      · exact Or.inr (Or.inl (by omega))

/-! ## Header bytes of the packets -/

theorem run_header_eq {run : Nat} (h2 : 2 ≤ run) (h128 : run ≤ 128) :
    uint8_t (0x80 ||| size_t (run + 18446744073709551616 - 1)) = 127 + run := by
  interval_cases run <;> rfl

theorem raw_header_eq {raw : Nat} (h1 : 1 ≤ raw) (h128 : raw ≤ 128) :
    uint8_t (size_t (raw + 18446744073709551616 - 1)) = raw - 1 := by
  interval_cases raw <;> rfl

theorem run_header_bits {n : Nat} (h2 : 2 ≤ n) (h128 : n ≤ 128) :
    (127 + n) &&& 0x80 ≠ 0 ∧ ((127 + n) &&& 0x7F) + 1 = n := by
  interval_cases n <;> decide

theorem raw_header_bits {n : Nat} (h1 : 1 ≤ n) (h128 : n ≤ 128) :
    (n - 1) &&& 0x80 = 0 ∧ ((n - 1) &&& 0x7F) + 1 = n := by
  interval_cases n <;> decide

/-! ## The packing loop -/

theorem fwrite_pixels {P : List Nat} {N i n : Nat} (hP : P.length = N * 4)
    (hN : N ≤ 4294836225) (hin : i + n ≤ N) (fp : FILE) :
    fwrite P (size_t (i * 4)) 4 n fp =
      .ok ((P.drop (i * 4)).take (4 * n), fp.put_bytes ((P.drop (i * 4)).take (4 * n))) := by
  unfold fwrite read_bytes
  rw [size_t_eq (by omega), if_pos (by omega)]

theorem rle_loop_spec {P : List Nat} {N : Nat} (hP : P.length = N * 4)
    (hN : N ≤ 4294836225) :
    ∀ (fuel i : Nat) (fp : FILE) (log : List Packet), i ≤ N → N < fuel + i →
      ∃ ps, rle_loop P N 4 fuel i fp log =
          .ok (N, fp.put_bytes (packet_stream ps), log ++ ps) ∧
        chained i ps N ∧ ∀ p ∈ ps, p.sound P N := by
  intro fuel
  induction fuel with
  | zero => intro i _ _ h1 h2; omega
  | succ fuel ih =>
    intro i fp log hiN hfuel
    unfold rle_loop
    by_cases hi : i < N
    · rw [if_pos hi]
      obtain ⟨run, hrun, hr1, hr128, hrN, hrall, hrmax⟩ :=
        run_scan_spec hP hN hi 128 1 (le_refl _) (by omega) (by omega) (by omega)
          (by intro k hk; have : k = 0 := by omega
              subst this; rfl)
      rw [hrun]
      simp only []
      by_cases h2 : run ≥ 2
      · rw [if_pos h2, fwrite_pixels hP hN (show i + 1 ≤ N by omega), run_header_eq h2 hr128,
          size_t_eq (show i + run < 18446744073709551616 by omega)]
        simp only []
        obtain ⟨ps, hps, hch, hsound⟩ :=
          ih (i + run) ((fputc (127 + run) fp).put_bytes ((P.drop (i * 4)).take (4 * 1)))
            (log ++ [⟨true, i, run, 127 + run, (P.drop (i * 4)).take (4 * 1)⟩])
            hrN (by omega)
        refine ⟨⟨true, i, run, 127 + run, (P.drop (i * 4)).take (4 * 1)⟩ :: ps, ?_, ?_, ?_⟩
        · rw [hps, fputc_eq, uint8_t, Nat.mod_eq_of_lt (by omega)]
          simp only [packet_stream, Packet.bytes, List.append_assoc, List.singleton_append,
            ← put_bytes_append, List.cons_append, List.nil_append]
        · exact ⟨rfl, by show 1 ≤ run; omega, hch⟩
        · intro p hp
          rcases List.mem_cons.mp hp with rfl | hp
          · refine ⟨hrN, hr128, fun _ => ⟨h2, rfl, rfl, hrall, hrmax⟩, fun h => ?_⟩
            exact Bool.noConfusion h
          · exact hsound p hp
      · rw [if_neg h2]
        have hrun1 : run = 1 := by omega
        subst hrun1
        obtain ⟨raw, hraw, hw1, hw128, hwN, hwall, hwmax⟩ :=
          raw_scan_spec (i := i) hP hN 128 1 (le_refl _) (by omega) (by omega) (by omega)
            (by intro k hk1 hk; omega)
        rw [hraw]
        simp only []
        rw [fwrite_pixels hP hN hwN, raw_header_eq hw1 hw128,
          size_t_eq (show i + raw < 18446744073709551616 by omega)]
        simp only []
        obtain ⟨ps, hps, hch, hsound⟩ :=
          ih (i + raw) ((fputc (raw - 1) fp).put_bytes ((P.drop (i * 4)).take (4 * raw)))
            (log ++ [⟨false, i, raw, raw - 1, (P.drop (i * 4)).take (4 * raw)⟩])
            hwN (by omega)
        refine ⟨⟨false, i, raw, raw - 1, (P.drop (i * 4)).take (4 * raw)⟩ :: ps, ?_, ?_, ?_⟩
        · rw [hps, fputc_eq, uint8_t, Nat.mod_eq_of_lt (by omega)]
          simp only [packet_stream, Packet.bytes, List.append_assoc, List.singleton_append,
            ← put_bytes_append, List.cons_append, List.nil_append]
        · exact ⟨rfl, hw1, hch⟩
        · intro p hp
          rcases List.mem_cons.mp hp with rfl | hp
          · refine ⟨hwN, hw128, fun h => Bool.noConfusion h, fun _ => ⟨hw1, rfl, rfl, ?_, hwmax⟩⟩
            intro k hk hkN
            show px P (i + k) ≠ px P (i + k + 1)
            replace hk : k < raw := hk
            replace hkN : i + k + 1 < N := hkN
            by_cases hk0 : k = 0
            · subst hk0
              rcases hrmax with h | h | h
              · omega
              · omega
              · exact fun e => h e.symm
            · exact hwall k (by omega) hk hkN
          · exact hsound p hp
    · rw [if_neg hi]
      have : i = N := by omega
      subst this
      exact ⟨[], by simp [packet_stream, FILE.put_bytes], rfl, by simp⟩

/-! ## The row transform -/

theorem load_byte_ok {mem : List Nat} {off : Nat} (h : off < mem.length) :
    load_byte mem off = .ok mem[off] := by
  unfold load_byte
  rw [List.getElem?_eq_getElem h]

theorem store_byte_ok {mem : List Nat} {off : Nat} (v : Nat) (h : off < mem.length) :
    store_byte mem off v = .ok (mem.set off v) := by
  unfold store_byte
  rw [if_pos h]

theorem swizzle_pixel_spec (src dst : Nat) (m : Heap)
    (hs : src + 3 < m.rgba_top_left.length) (hd : dst + 3 < m.pixels.length) :
    ∃ m1, swizzle_pixel src dst m = .ok m1 ∧ m1.rgba_top_left = m.rgba_top_left ∧
      m1.pixels.length = m.pixels.length ∧
      m1.pixels[dst]? = m.rgba_top_left[src + 2]? ∧
      m1.pixels[dst + 1]? = m.rgba_top_left[src + 1]? ∧
      m1.pixels[dst + 2]? = m.rgba_top_left[src]? ∧
      m1.pixels[dst + 3]? = m.rgba_top_left[src + 3]? ∧
      ∀ j, (j < dst ∨ dst + 4 ≤ j) → m1.pixels[j]? = m.pixels[j]? := by
  unfold swizzle_pixel
  rw [load_byte_ok (show src + 2 < _ by omega), load_byte_ok (show src + 1 < _ by omega),
    load_byte_ok (show src + 0 < _ by omega), load_byte_ok (show src + 3 < _ by omega)]
  simp only [bind, Except.bind, pure, Except.pure]
  rw [store_byte_ok _ (show dst + 0 < _ by omega)]
  simp only []
  rw [store_byte_ok _ (show dst + 1 < _ by simp only [List.length_set]; omega)]
  simp only []
  rw [store_byte_ok _ (show dst + 2 < _ by simp only [List.length_set]; omega)]
  simp only []
  rw [store_byte_ok _ (show dst + 3 < _ by simp only [List.length_set]; omega)]
  refine ⟨_, rfl, rfl, by simp only [List.length_set], ?_, ?_, ?_, ?_, ?_⟩
  · rw [List.getElem?_eq_getElem (show src + 2 < _ by omega)]
    simp [List.getElem?_set, hd, show dst < m.pixels.length by omega]
  · rw [List.getElem?_eq_getElem (show src + 1 < _ by omega)]
    simp [List.getElem?_set, hd, show dst + 1 < m.pixels.length by omega]
  · rw [List.getElem?_eq_getElem (show src < _ by omega)]
    simp [List.getElem?_set, hd, show dst + 2 < m.pixels.length by omega]
  · rw [List.getElem?_eq_getElem (show src + 3 < _ by omega)]
    simp [List.getElem?_set, hd]
  · intro j hj
    have h0 : dst ≠ j := by omega
    have h1 : dst + 1 ≠ j := by omega
    have h2 : dst + 2 ≠ j := by omega
    have h3 : dst + 3 ≠ j := by omega
    simp [List.getElem?_set, h0, h1, h2, h3]

theorem row_offset_le {W H y : Nat} (hy : y < H) : y * W + W ≤ W * H := by
  have h := Nat.mul_le_mul_right W (Nat.succ_le_of_lt hy)
  rw [Nat.succ_mul, Nat.mul_comm H W] at h
  exact h

theorem dim_mul_le {W H : Nat} (hW : W ≤ 65535) (hH : H ≤ 65535) : W * H ≤ 4294836225 :=
  Nat.mul_le_mul hW hH

theorem column_loop_spec {rgba : List Nat} {W H y : Nat} (hW : W ≤ 65535) (hH : H ≤ 65535)
    (hy : y < H) (hr : rgba.length = W * H * 4) :
    ∀ (fuel x : Nat) (m : Heap), x ≤ W → W < fuel + x → m.rgba_top_left = rgba →
      m.pixels.length = W * H * 4 →
      (∀ y1 x1, x1 < W → (y1 < y ∨ (y1 = y ∧ x1 < x)) → pixel_done rgba W H m.pixels y1 x1) →
      ∃ m1, column_loop W 4 ((H - 1 - y) * W * 4) (y * W * 4) fuel x m = .ok m1 ∧
        m1.rgba_top_left = rgba ∧ m1.pixels.length = W * H * 4 ∧
        ∀ y1 x1, x1 < W → y1 ≤ y → pixel_done rgba W H m1.pixels y1 x1 := by
  have hWH := dim_mul_le hW hH
  have hsrc : (H - 1 - y) * W + W ≤ W * H := row_offset_le (by omega)
  have hdst : y * W + W ≤ W * H := row_offset_le hy
  intro fuel
  induction fuel with
  | zero => intro x m h1 h2; omega
  | succ fuel ih =>
    intro x m hxW hfuel hm hlen hinv
    unfold column_loop
    by_cases hx : x < W
    · rw [if_pos hx]
      simp only []
      rw [size_t_eq (show x * 4 < 18446744073709551616 by omega)]
      obtain ⟨m1, hm1, hrg, hl, h0, h1, h2, h3, hother⟩ :=
        swizzle_pixel_spec ((H - 1 - y) * W * 4 + x * 4) (y * W * 4 + x * 4) m
          (by rw [hm, hr]; omega) (by rw [hlen]; omega)
      rw [hm1]
      simp only []
      rw [uint32_t_eq (show x + 1 < 4294967296 by omega)]
      refine ih (x + 1) m1 (by omega) (by omega) (by rw [hrg, hm]) (by rw [hl, hlen]) ?_
      intro y1 x1 hx1 hcase
      have e1 : (y * W + x) * 4 = y * W * 4 + x * 4 := by omega
      have e2 : ((H - 1 - y) * W + x) * 4 = (H - 1 - y) * W * 4 + x * 4 := by omega
      by_cases hnew : y1 = y ∧ x1 = x
      · obtain ⟨rfl, rfl⟩ := hnew
        unfold pixel_done
        rw [e1, e2, h0, h1, h2, h3, hm]
        exact ⟨rfl, rfl, rfl, rfl⟩
      · have hold : pixel_done rgba W H m.pixels y1 x1 := by
          apply hinv y1 x1 hx1
          rcases hcase with h | ⟨h, h4⟩
          · exact Or.inl h
          · exact Or.inr ⟨h, by omega⟩
        have hlt : (y1 * W + x1) * 4 + 3 < y * W * 4 + x * 4 := by
          rcases hcase with h | ⟨h, h4⟩
          · have := row_offset_le (W := W) h
            rw [Nat.mul_comm W y] at this
            omega
          · subst h
            omega
        unfold pixel_done at hold ⊢
        rw [hother _ (Or.inl (by omega)), hother _ (Or.inl (by omega)),
          hother _ (Or.inl (by omega)), hother _ (Or.inl (by omega))]
        exact hold
    · rw [if_neg hx]
      refine ⟨m, rfl, hm, hlen, ?_⟩
      intro y1 x1 hx1 hy1
      apply hinv y1 x1 hx1
      by_cases h : y1 < y
      · exact Or.inl h
      · exact Or.inr ⟨by omega, by omega⟩

theorem row_loop_spec {rgba : List Nat} {W H : Nat} (hW : W ≤ 65535) (hH : H ≤ 65535)
    (hr : rgba.length = W * H * 4) :
    ∀ (fuel y : Nat) (m : Heap), y ≤ H → H < fuel + y → m.rgba_top_left = rgba →
      m.pixels.length = W * H * 4 →
      (∀ y1 x1, x1 < W → y1 < y → pixel_done rgba W H m.pixels y1 x1) →
      ∃ m1, row_loop W H 4 fuel y m = .ok m1 ∧
        m1.rgba_top_left = rgba ∧ m1.pixels.length = W * H * 4 ∧
        ∀ y1 x1, x1 < W → y1 < H → pixel_done rgba W H m1.pixels y1 x1 := by
  have hWH := dim_mul_le hW hH
  intro fuel
  induction fuel with
  | zero => intro y m h1 h2; omega
  | succ fuel ih =>
    intro y m hyH hfuel hm hlen hinv
    unfold row_loop
    by_cases hy : y < H
    · rw [if_pos hy]
      simp only []
      have hsrc : (H - 1 - y) * W + W ≤ W * H := row_offset_le (by omega)
      have hdst : y * W + W ≤ W * H := row_offset_le hy
      have e1 : uint32_sub (uint32_sub H 1) y = H - 1 - y := by
        unfold uint32_sub
        omega
      rw [e1, size_t_eq (show (H - 1 - y) * W < 18446744073709551616 by omega),
        size_t_eq (show (H - 1 - y) * W * 4 < 18446744073709551616 by omega),
        size_t_eq (show y * W < 18446744073709551616 by omega),
        size_t_eq (show y * W * 4 < 18446744073709551616 by omega)]
      obtain ⟨m1, hm1, hrg, hl, hdone⟩ :=
        column_loop_spec hW hH hy hr (W + 1) 0 m (by omega) (by omega) hm hlen (by
          intro y1 x1 hx1 hcase
          rcases hcase with h | ⟨_, h⟩
          · exact hinv y1 x1 hx1 h
          · omega)
      rw [hm1]
      simp only []
      rw [uint32_t_eq (show y + 1 < 4294967296 by omega)]
      exact ih (y + 1) m1 (by omega) (by omega) hrg hl
        (fun y1 x1 hx1 hy1 => hdone y1 x1 hx1 (by omega))
    · rw [if_neg hy]
      exact ⟨m, rfl, hm, hlen, fun y1 x1 hx1 hy1 => hinv y1 x1 hx1 (by omega)⟩

/-! ## The header -/

theorem le16_low (v : Nat) : uint8_t (uint16_t v &&& 0xFF) = v % 256 := by
  have e : uint16_t v &&& 0xFF = uint16_t v % 256 := Nat.and_pow_two_sub_one_eq_mod _ 8
  rw [e]
  unfold uint8_t uint16_t
  omega

theorem le16_high {v : Nat} (h : v ≤ 65535) :
    uint8_t ((uint16_t v >>> 8) &&& 0xFF) = v / 256 := by
  have e : (uint16_t v >>> 8) &&& 0xFF = (uint16_t v >>> 8) % 256 :=
    Nat.and_pow_two_sub_one_eq_mod _ 8
  rw [e, Nat.shiftRight_eq_div_pow]
  unfold uint8_t uint16_t
  omega

theorem write_header_eq (fp : FILE) {W H : Nat} (hW : W ≤ 65535) (hH : H ≤ 65535) :
    write_header fp W H = fp.put_bytes (tga_header W H) := by
  unfold write_header write_le16
  simp only [le16_low, le16_high hW, le16_high hH]
  rfl

/-! ## The whole function -/

theorem write_tga_rle_spec {rgba : List Nat} {W H : Nat} (junk : Nat → Nat)
    (room : Option Nat) (hW : W ≤ 65535) (hH : H ≤ 65535) (hr : rgba.length = W * H * 4) :
    ∃ pix ps, write_tga_rle ⟨some junk, some room⟩ rgba W H =
        .ok ⟨FILE.put_bytes (tga_header W H ++ packet_stream ps) ⟨[], room⟩,
          ⟨rgba, pix⟩, W * H, ps⟩ ∧
      pix.length = W * H * 4 ∧
      (∀ y x, x < W → y < H → pixel_done rgba W H pix y x) ∧
      chained 0 ps (W * H) ∧ ∀ p ∈ ps, p.sound pix (W * H) := by
  have hWH := dim_mul_le hW hH
  unfold write_tga_rle
  rw [if_neg (by omega)]
  simp only []
  rw [size_t_eq (show W < 18446744073709551616 by omega),
    size_t_eq (show H < 18446744073709551616 by omega),
    size_t_eq (show W * H < 18446744073709551616 by omega),
    size_t_eq (show W * H * 4 < 18446744073709551616 by omega)]
  obtain ⟨m, hm, hrg, hl, hdone⟩ :=
    row_loop_spec hW hH hr (H + 1) 0 ⟨rgba, (List.range (W * H * 4)).map junk⟩
      (by omega) (by omega) rfl (by simp) (by intro y1 x1 _ h; omega)
  rw [hm]
  simp only []
  obtain ⟨ps, hps, hch, hsound⟩ :=
    rle_loop_spec (P := m.pixels) (N := W * H) hl hWH (W * H + 1) 0
      (write_header ⟨[], room⟩ W H) [] (by omega) (by omega)
  rw [hps]
  refine ⟨m.pixels, ps, ?_, hl, fun y x hx hy => hdone y x hx hy, hch, hsound⟩
  simp only [List.nil_append]
  rw [write_header_eq _ hW hH, put_bytes_append]
  cases m
  simp only at hrg
  subst hrg
  rfl

/-! ## Pixels as four-byte lists -/

theorem px_length {P : List Nat} {k : Nat} (h : k * 4 + 4 ≤ P.length) : (px P k).length = 4 := by
  unfold px
  rw [List.length_take, List.length_drop]
  omega

theorem px_getElem? (P : List Nat) (k j : Nat) (hj : j < 4) : (px P k)[j]? = P[k * 4 + j]? := by
  unfold px
  rw [List.getElem?_take_of_lt hj, List.getElem?_drop]

theorem px_eq_of_bytes {P : List Nat} {k a b c d : Nat} (h0 : P[k * 4]? = some a)
    (h1 : P[k * 4 + 1]? = some b) (h2 : P[k * 4 + 2]? = some c) (h3 : P[k * 4 + 3]? = some d) :
    px P k = [a, b, c, d] := by
  have hlen : k * 4 + 4 ≤ P.length := by
    have := (List.getElem?_eq_some_iff.mp h3).1
    omega
  apply List.ext_getElem?
  intro j
  by_cases hj : j < 4
  · rw [px_getElem? P k j hj]
    interval_cases j
    · simpa using h0
    · simpa using h1
    · simpa using h2
    · simpa using h3
  · have e1 : (px P k)[j]? = none := by
      rw [List.getElem?_eq_none_iff, px_length hlen]
      omega
    have e2 : ([a, b, c, d] : List Nat)[j]? = none := by
      rw [List.getElem?_eq_none_iff]
      simp only [List.length_cons, List.length_nil]
      omega
    rw [e1, e2]

theorem bytes_of_px_eq {P : List Nat} {k a b c d : Nat} (h : px P k = [a, b, c, d]) :
    P[k * 4]? = some a ∧ P[k * 4 + 1]? = some b ∧ P[k * 4 + 2]? = some c ∧
      P[k * 4 + 3]? = some d := by
  have e0 := px_getElem? P k 0 (by omega)
  have e1 := px_getElem? P k 1 (by omega)
  have e2 := px_getElem? P k 2 (by omega)
  have e3 := px_getElem? P k 3 (by omega)
  rw [h] at e0 e1 e2 e3
  simp only [List.getElem?_cons_zero, List.getElem?_cons_succ, Nat.add_zero] at e0 e1 e2 e3
  exact ⟨e0.symm, e1.symm, e2.symm, e3.symm⟩

theorem px_exists {P : List Nat} {k : Nat} (h : k * 4 + 4 ≤ P.length) :
    ∃ a b c d, px P k = [a, b, c, d] :=
  ⟨P[k * 4], P[k * 4 + 1], P[k * 4 + 2], P[k * 4 + 3],
    px_eq_of_bytes (List.getElem?_eq_getElem _) (List.getElem?_eq_getElem _)
      (List.getElem?_eq_getElem _) (List.getElem?_eq_getElem _)⟩

theorem pixel_done_px {rgba pix : List Nat} {W H y x : Nat} (hr : rgba.length = W * H * 4)
    (hx : x < W) (hy : y < H) (hd : pixel_done rgba W H pix y x) :
    ∃ r g b a, px rgba ((H - 1 - y) * W + x) = [r, g, b, a] ∧
      px pix (y * W + x) = [b, g, r, a] := by
  have hsrc : (H - 1 - y) * W + W ≤ W * H := row_offset_le (by omega)
  obtain ⟨r, g, b, a, hp⟩ :=
    px_exists (P := rgba) (k := (H - 1 - y) * W + x) (by rw [hr]; omega)
  obtain ⟨b0, b1, b2, b3⟩ := bytes_of_px_eq hp
  obtain ⟨d0, d1, d2, d3⟩ := hd
  refine ⟨r, g, b, a, hp, px_eq_of_bytes ?_ ?_ ?_ ?_⟩
  · rw [d0, b2]
  · rw [d1, b1]
  · rw [d2, b0]
  · rw [d3, b3]

/-! ## Chains of packets and the reference decoder -/

theorem drop_pixel_succ (P : List Nat) (i : Nat) :
    px P i ++ P.drop ((i + 1) * 4) = P.drop (i * 4) := by
  have e : (i + 1) * 4 = i * 4 + 4 := by omega
  unfold px
  rw [e, ← List.drop_drop]
  exact List.take_append_drop 4 _

theorem replicate_px_drop {P : List Nat} {v : List Nat} :
    ∀ (n i : Nat), (∀ k, k < n → px P (i + k) = v) →
      (List.replicate n v).flatten ++ P.drop ((i + n) * 4) = P.drop (i * 4) := by
  intro n
  induction n with
  | zero => intro i _; simp
  | succ n ih =>
    intro i hall
    have h0 : px P i = v := hall 0 (by omega)
    have hrec := ih (i + 1) (fun k hk => by
      have := hall (k + 1) (by omega)
      rwa [show i + (k + 1) = i + 1 + k by omega] at this)
    rw [List.replicate_succ, List.flatten_cons, List.append_assoc,
      show i + (n + 1) = i + 1 + n by omega, hrec, ← h0]
    exact drop_pixel_succ P i

theorem chained_sum_len {N : Nat} :
    ∀ (ps : List Packet) (i : Nat), chained i ps N → i + (ps.map Packet.len).sum = N := by
  intro ps
  induction ps with
  | nil => intro i h; simpa [chained] using h
  | cons p ps ih =>
    intro i h
    obtain ⟨_, _, h3⟩ := h
    have := ih _ h3
    simp only [List.map_cons, List.sum_cons]
    omega

theorem chained_adjacent {N : Nat} :
    ∀ (l1 : List Packet) (i : Nat) (p q : Packet) (l2 : List Packet),
      chained i (l1 ++ p :: q :: l2) N → q.start = p.start + p.len := by
  intro l1
  induction l1 with
  | nil =>
    intro i p q l2 h
    obtain ⟨h1, _, h2, _⟩ := h
    rw [h2, h1]
  | cons a l1 ih =>
    intro i p q l2 h
    exact ih _ p q l2 h.2.2

theorem decode_packets {P : List Nat} {N : Nat} (hP : P.length = N * 4) :
    ∀ (ps : List Packet) (i fuel : Nat), chained i ps N → (∀ p ∈ ps, p.sound P N) →
      ps.length ≤ fuel → reference_decode fuel (packet_stream ps) = some (P.drop (i * 4)) := by
  intro ps
  induction ps with
  | nil =>
    intro i fuel hch _ _
    have hi : i = N := hch
    subst hi
    rw [List.drop_of_length_le (by omega)]
    cases fuel <;> rfl
  | cons p ps ih =>
    intro i fuel hch hs hfuel
    obtain ⟨hstart, hlen1, hrest⟩ := hch
    obtain ⟨hbound, h128, hrun, hraw⟩ := hs p (List.mem_cons_self _ _)
    have hrec : ∀ f, ps.length ≤ f →
        reference_decode f (packet_stream ps) = some (P.drop ((i + p.len) * 4)) :=
      fun f hf => ih (i + p.len) f hrest (fun q hq => hs q (List.mem_cons_of_mem _ hq)) hf
    cases fuel with
    | zero => simp at hfuel
    | succ f =>
      have hf : ps.length ≤ f := by simpa using hfuel
      show reference_decode (f + 1) (p.header :: (p.payload ++ packet_stream ps)) = _
      unfold reference_decode
      simp only []
      cases hk : p.is_run with
      | true =>
        obtain ⟨h2, hhdr, hpay, hall, _⟩ := hrun hk
        obtain ⟨hb1, hb2⟩ := run_header_bits h2 h128
        have hpl : p.payload.length = 4 := by
          rw [hpay]
          exact px_length (by omega)
        rw [hhdr, if_pos hb1, if_pos (by rw [List.length_append]; omega), hb2,
          List.drop_left' hpl, List.take_left' hpl, hrec f hf, hpay, hstart]
        simp only [Option.map_some']
        rw [replicate_px_drop p.len i (fun k hk => by rw [← hstart]; exact hall k hk)]
      | false =>
        obtain ⟨h1, hhdr, hpay, _, _⟩ := hraw hk
        obtain ⟨hb1, hb2⟩ := raw_header_bits h1 h128
        have hpl : p.payload.length = 4 * p.len := by
          rw [hpay, List.length_take, List.length_drop]
          omega
        rw [hhdr, if_neg (by rw [hb1]; exact fun h => h rfl),
          if_pos (by rw [List.length_append, hb2]; omega), hb2,
          List.drop_left' hpl, List.take_left' hpl, hrec f hf, hpay, hstart]
        simp only [Option.map_some']
        have e : (i + p.len) * 4 = i * 4 + 4 * p.len := by omega
        rw [e, ← List.drop_drop]
        exact congrArg some (List.take_append_drop _ _)

theorem packet_stream_length_ge :
    ∀ (ps : List Packet), ps.length ≤ (packet_stream ps).length := by
  intro ps
  induction ps with
  | nil => simp [packet_stream]
  | cons p ps ih =>
    simp only [packet_stream, Packet.bytes, List.length_cons, List.length_append]
    omega

theorem put_bytes_limited (a bs : List Nat) (r : Nat) :
    FILE.put_bytes a ⟨bs, some r⟩ = ⟨bs ++ a.take r, some (r - a.length)⟩ := by
  induction a generalizing bs r with
  | nil => simp [FILE.put_bytes]
  | cons x xs ih =>
    cases r with
    | zero =>
      have h := ih bs 0
      simp only [List.take_zero, List.append_nil, Nat.zero_sub] at h
      simp [FILE.put_bytes, FILE.put_byte, h]
    | succ r =>
      simp only [FILE.put_bytes, FILE.put_byte, ih, List.take_succ_cons, List.length_cons,
        List.append_assoc, List.singleton_append, Nat.add_sub_add_right]

theorem tga_header_length (W H : Nat) : (tga_header W H).length = 18 := rfl

theorem chained_single {P : List Nat} {N : Nat} {p : Packet} {rest : List Packet}
    (hch : chained 0 (p :: rest) N) (hs : ∀ q ∈ p :: rest, q.sound P N) (hlen : p.len = N) :
    rest = [] := by
  obtain ⟨_, _, hrest⟩ := hch
  cases rest with
  | nil => rfl
  | cons q qs =>
    obtain ⟨hq, hq1, _⟩ := hrest
    obtain ⟨hqN, _⟩ := hs q (by simp)
    omega

theorem chained_nonempty {N : Nat} {ps : List Packet} (hch : chained 0 ps N) (hN : 0 < N) :
    ∃ p rest, ps = p :: rest := by
  cases ps with
  | nil =>
    have : 0 = N := hch
    omega
  | cons p rest => exact ⟨p, rest, rfl⟩

theorem run_header_lor {n : Nat} (h1 : 1 ≤ n) (h128 : n ≤ 128) :
    0x80 ||| (n - 1) = 127 + n := by
  interval_cases n <;> rfl

/-! ## The claims -/

/-- C1. Round trip.  For an image with both dimensions in 1..65535 and a buffer
of `W * H * 4` bytes, with `malloc` succeeding and a stream that accepts every
byte, `write_tga_rle` returns 1, and the reference decoder run over the bytes
that follow the 18-byte header consumes them exactly and yields the BGRA buffer
that was packed. -/
theorem round_trip (junk : Nat → Nat) (rgba : List Nat) (W H : Nat)
    (hW : 1 ≤ W ∧ W ≤ 65535) (hH : 1 ≤ H ∧ H ≤ 65535) (hr : rgba.length = W * H * 4) :
    ∃ out, write_tga_rle ⟨some junk, some none⟩ rgba W H = .ok out ∧
      out.mem.pixels.length = W * H * 4 ∧
      reference_decode (out.file.bytes.drop 18).length (out.file.bytes.drop 18) =
        some out.mem.pixels := by
  obtain ⟨pix, ps, hout, hlen, _, hch, hsound⟩ := write_tga_rle_spec junk none hW.2 hH.2 hr
  refine ⟨_, hout, hlen, ?_⟩
  simp only [put_bytes_unbounded, List.nil_append]
  rw [List.drop_left' (tga_header_length W H)]
  have h := decode_packets hlen ps 0 (packet_stream ps).length hch hsound
    (packet_stream_length_ge ps)
  simpa using h

/-- Instance of C1: a 3x2 image with a run that crosses the two rows. -/
theorem round_trip_witness :
    ((1 ≤ 3 ∧ 3 ≤ 65535) ∧ (1 ≤ 2 ∧ 2 ≤ 65535)) ∧
    ∃ out, write_tga_rle ⟨some (fun _ => 0), some none⟩
        [9, 9, 9, 9, 1, 1, 1, 1, 1, 1, 1, 1, 2, 2, 2, 2, 3, 3, 3, 3, 3, 3, 3, 3] 3 2 = .ok out ∧
      out.mem.pixels.length = 3 * 2 * 4 ∧
      reference_decode (out.file.bytes.drop 18).length (out.file.bytes.drop 18) =
        some out.mem.pixels :=
  ⟨⟨⟨by decide, by decide⟩, ⟨by decide, by decide⟩⟩,
    round_trip (fun _ => 0) _ 3 2 ⟨by decide, by decide⟩ ⟨by decide, by decide⟩ rfl⟩

/-- C2. Header.  For an image with both dimensions in 1..65535, the bytes
`write_tga_rle` sends to a stream that accepts them all start with
00 00 0A 00 00 00 00 00 00 00 00 00, two bytes of width, two bytes of height, 20
and 08; the width and height bytes are the little-endian digits of `W` and `H`,
nothing being lost; the bytes from offset 18 on are the packets, in order. -/
theorem header_bytes (junk : Nat → Nat) (rgba : List Nat) (W H : Nat)
    (hW : 1 ≤ W ∧ W ≤ 65535) (hH : 1 ≤ H ∧ H ≤ 65535) (hr : rgba.length = W * H * 4) :
    ∃ out w0 w1 h0 h1, write_tga_rle ⟨some junk, some none⟩ rgba W H = .ok out ∧
      out.file.bytes.take 18 =
        [0, 0, 10, 0, 0, 0, 0, 0, 0, 0, 0, 0, w0, w1, h0, h1, 32, 8] ∧
      w0 < 256 ∧ w1 < 256 ∧ h0 < 256 ∧ h1 < 256 ∧
      w0 + 256 * w1 = W ∧ h0 + 256 * h1 = H ∧
      out.file.bytes.drop 18 = packet_stream out.packets := by
  obtain ⟨pix, ps, hout, _, _, _, _⟩ := write_tga_rle_spec junk none hW.2 hH.2 hr
  refine ⟨_, W % 256, W / 256, H % 256, H / 256, hout, ?_, by omega, by omega, by omega,
    by omega, by omega, by omega, ?_⟩
  · simp only [put_bytes_unbounded, List.nil_append]
    rw [List.take_left' (tga_header_length W H)]
    rfl
  · simp only [put_bytes_unbounded, List.nil_append]
    rw [List.drop_left' (tga_header_length W H)]

/-- Instance of C2: a 300x1 image of one colour; 300 = 0x012C. -/
theorem header_bytes_witness :
    ((1 ≤ 300 ∧ 300 ≤ 65535) ∧ (1 ≤ 1 ∧ 1 ≤ 65535)) ∧
    ∃ out w0 w1 h0 h1,
      write_tga_rle ⟨some (fun _ => 0), some none⟩ (List.replicate (300 * 1 * 4) 7) 300 1 =
        .ok out ∧
      out.file.bytes.take 18 =
        [0, 0, 10, 0, 0, 0, 0, 0, 0, 0, 0, 0, w0, w1, h0, h1, 32, 8] ∧
      w0 < 256 ∧ w1 < 256 ∧ h0 < 256 ∧ h1 < 256 ∧
      w0 + 256 * w1 = 300 ∧ h0 + 256 * h1 = 1 ∧
      out.file.bytes.drop 18 = packet_stream out.packets :=
  ⟨⟨⟨by decide, by decide⟩, ⟨by decide, by decide⟩⟩,
    header_bytes (fun _ => 0) _ 300 1 ⟨by decide, by decide⟩ ⟨by decide, by decide⟩
      (List.length_replicate _ _)⟩

/-- C3. Row reversal and swizzle.  For an image that passes the dimension guard,
with `W > 0`, `H > 0` and a buffer of `W * H * 4` bytes, the buffer `pixels`
that `write_tga_rle` has built when it starts packing has `W * H * 4` bytes, and
for every `y < H`, `x < W` its pixel `(y, x)` is `(B, G, R, A)` where
`(R, G, B, A)` is the input pixel `(H - 1 - y, x)`; the input buffer is as it
was.  (Output row 0 is then input row `H - 1`, and output row `H - 1` input
row 0.) -/
theorem row_reversal_swizzle (junk : Nat → Nat) (room : Option Nat) (rgba : List Nat)
    (W H : Nat) (hW : 0 < W ∧ W ≤ 65535) (hH : 0 < H ∧ H ≤ 65535)
    (hr : rgba.length = W * H * 4) :
    ∃ out, write_tga_rle ⟨some junk, some room⟩ rgba W H = .ok out ∧
      out.mem.pixels.length = W * H * 4 ∧
      out.mem.rgba_top_left = rgba ∧
      ∀ y x, y < H → x < W →
        ∃ r g b a, px rgba ((H - 1 - y) * W + x) = [r, g, b, a] ∧
          px out.mem.pixels (y * W + x) = [b, g, r, a] := by
  obtain ⟨pix, ps, hout, hlen, hdone, _, _⟩ := write_tga_rle_spec junk room hW.2 hH.2 hr
  exact ⟨_, hout, hlen, rfl, fun y x hy hx => pixel_done_px hr hx hy (hdone y x hx hy)⟩

/-- Instance of C3: the 1x2 image with top row (9,9,9,9) and bottom row
(1,1,1,1); the buffer built presents (1,1,1,1) before (9,9,9,9). -/
theorem row_reversal_swizzle_witness :
    ((0 < 1 ∧ 1 ≤ 65535) ∧ (0 < 2 ∧ 2 ≤ 65535)) ∧
    (∃ out, write_tga_rle ⟨some (fun _ => 0), some none⟩ [9, 9, 9, 9, 1, 1, 1, 1] 1 2 =
        .ok out ∧
      out.mem.pixels.length = 1 * 2 * 4 ∧
      out.mem.rgba_top_left = [9, 9, 9, 9, 1, 1, 1, 1] ∧
      ∀ y x, y < 2 → x < 1 →
        ∃ r g b a, px [9, 9, 9, 9, 1, 1, 1, 1] ((2 - 1 - y) * 1 + x) = [r, g, b, a] ∧
          px out.mem.pixels (y * 1 + x) = [b, g, r, a]) ∧
    (∃ out, write_tga_rle ⟨some (fun _ => 0), some none⟩ [9, 9, 9, 9, 1, 1, 1, 1] 1 2 =
        .ok out ∧ out.mem.pixels = [1, 1, 1, 1, 9, 9, 9, 9]) :=
  ⟨⟨⟨by decide, by decide⟩, ⟨by decide, by decide⟩⟩,
    row_reversal_swizzle (fun _ => 0) none _ 1 2 ⟨by decide, by decide⟩
      ⟨by decide, by decide⟩ rfl,
    ⟨_, rfl, rfl⟩⟩

/-- C4. Dimension limit.  On a well-formed buffer, `write_tga_rle` ends with the
error `DimensionTooLarge` exactly when `W > 65535` or `H > 65535`, whatever
`malloc` and `fopen` would answer.  When a dimension is too large this is the
result for every environment and every buffer: nothing is allocated, no stream
is opened, no byte is written (an error result carries no stream).  Width 65536
or height 65536 is rejected; 65535 x 65535 is not. -/
theorem dimension_limit (env : Env) (rgba : List Nat) (W H : Nat)
    (hr : rgba.length = W * H * 4) :
    (write_tga_rle env rgba W H = .error .DimensionTooLarge ↔ (W > 65535 ∨ H > 65535)) ∧
    ((W > 65535 ∨ H > 65535) → ∀ (env1 : Env) (buf : List Nat),
      write_tga_rle env1 buf W H = .error .DimensionTooLarge) ∧
    (∀ (env1 : Env) (buf : List Nat),
      write_tga_rle env1 buf 65536 H = .error .DimensionTooLarge ∧
      write_tga_rle env1 buf W 65536 = .error .DimensionTooLarge) ∧
    (∀ (env1 : Env) (buf : List Nat), buf.length = 65535 * 65535 * 4 →
      write_tga_rle env1 buf 65535 65535 ≠ .error .DimensionTooLarge) := by
  have hbig : ∀ (w h : Nat), (w > 65535 ∨ h > 65535) → ∀ (env1 : Env) (buf : List Nat),
      write_tga_rle env1 buf w h = .error .DimensionTooLarge := by
    intro w h hd env1 buf
    unfold write_tga_rle
    rw [if_pos hd]
  have hsmall : ∀ (w h : Nat) (env1 : Env) (buf : List Nat), w ≤ 65535 → h ≤ 65535 →
      buf.length = w * h * 4 → write_tga_rle env1 buf w h ≠ .error .DimensionTooLarge := by
    intro w h env1 buf hw hh hb
    obtain ⟨heap, sink⟩ := env1
    cases heap with
    | none =>
      unfold write_tga_rle
      rw [if_neg (by omega)]
      exact fun h => TgaError.noConfusion (Except.error.inj h)
    | some junk =>
      cases sink with
      | none =>
        obtain ⟨m, hm, _⟩ :=
          row_loop_spec hw hh hb (h + 1) 0 ⟨buf, (List.range (w * h * 4)).map junk⟩
            (by omega) (by omega) rfl (by simp) (by intro y1 x1 _ h; omega)
        have hwh := dim_mul_le hw hh
        unfold write_tga_rle
        rw [if_neg (by omega)]
        simp only []
        rw [size_t_eq (show w < 18446744073709551616 by omega),
          size_t_eq (show h < 18446744073709551616 by omega),
          size_t_eq (show w * h < 18446744073709551616 by omega),
          size_t_eq (show w * h * 4 < 18446744073709551616 by omega), hm]
        exact fun h => TgaError.noConfusion (Except.error.inj h)
      | some room =>
        obtain ⟨pix, ps, hout, _⟩ := write_tga_rle_spec junk room hw hh hb
        rw [hout]
        exact fun h => Except.noConfusion h
  refine ⟨⟨fun h => ?_, fun h => hbig W H h env rgba⟩, hbig W H, fun env1 buf =>
    ⟨hbig _ _ (Or.inl (by decide)) env1 buf, hbig _ _ (Or.inr (by decide)) env1 buf⟩,
    fun env1 buf hb => hsmall _ _ env1 buf (le_refl _) (le_refl _) hb⟩
  by_contra hn
  exact hsmall W H env rgba (by omega) (by omega) hr h

/-- Instance of C4: a 2x1 image, which is not rejected. -/
theorem dimension_limit_witness :
    ([1, 2, 3, 4, 5, 6, 7, 8] : List Nat).length = 2 * 1 * 4 ∧
    ¬ (2 > 65535 ∨ 1 > 65535) ∧
    write_tga_rle ⟨none, none⟩ [1, 2, 3, 4, 5, 6, 7, 8] 2 1 ≠ .error .DimensionTooLarge ∧
    write_tga_rle ⟨none, none⟩ [1, 2, 3, 4, 5, 6, 7, 8] 65536 1 = .error .DimensionTooLarge :=
  have h := dimension_limit ⟨none, none⟩ [1, 2, 3, 4, 5, 6, 7, 8] 2 1 rfl
  ⟨rfl, by decide, fun e => absurd (h.1.mp e) (by decide), (h.2.2.1 ⟨none, none⟩ _).1⟩

/-- C5, as stated, fails.  The 1x1 image (1,2,3,4) makes 23 bytes: the header
and the raw packet 00 03 02 01 04.  On a stream that accepts 20 bytes and then
fails every write, `write_tga_rle` still returns 1, with 20 bytes written. -/
theorem write_failure_counterexample :
    (∃ out, write_tga_rle ⟨some (fun _ => 0), some none⟩ [1, 2, 3, 4] 1 1 = .ok out ∧
      out.file.bytes =
        [0, 0, 10, 0, 0, 0, 0, 0, 0, 0, 0, 0, 1, 0, 1, 0, 32, 8, 0, 3, 2, 1, 4]) ∧
    (∃ out, write_tga_rle ⟨some (fun _ => 0), some (some 20)⟩ [1, 2, 3, 4] 1 1 = .ok out ∧
      out.file.bytes = [0, 0, 10, 0, 0, 0, 0, 0, 0, 0, 0, 0, 1, 0, 1, 0, 32, 8, 0, 3] ∧
      out.file.room = some 0) :=
  ⟨⟨_, rfl, rfl⟩, ⟨_, rfl, rfl, rfl⟩⟩

/-- C5, amended.  `write_tga_rle` looks at the result of no write: for a valid
image, once `malloc` and `fopen` have succeeded it returns 1 whatever room the
stream has, and the stream then holds the bytes of the header and the packets
that it accepted: all of them when it never fails, the first `r` of them when
it fails after `r` bytes. -/
theorem write_failure_unchecked (junk : Nat → Nat) (room : Option Nat) (rgba : List Nat)
    (W H : Nat) (hW : 1 ≤ W ∧ W ≤ 65535) (hH : 1 ≤ H ∧ H ≤ 65535)
    (hr : rgba.length = W * H * 4) :
    ∃ out, write_tga_rle ⟨some junk, some room⟩ rgba W H = .ok out ∧
      out.file.bytes =
        match room with
        | none => tga_header W H ++ packet_stream out.packets
        | some r => (tga_header W H ++ packet_stream out.packets).take r := by
  obtain ⟨pix, ps, hout, _⟩ := write_tga_rle_spec junk room hW.2 hH.2 hr
  refine ⟨_, hout, ?_⟩
  cases room with
  | none => simp only [put_bytes_unbounded, List.nil_append]
  | some r => simp only [put_bytes_limited, List.nil_append]

/-- Instance of C5 amended: the 1x1 image on a stream with room for 20 bytes. -/
theorem write_failure_unchecked_witness :
    ((1 ≤ 1 ∧ 1 ≤ 65535) ∧ ([1, 2, 3, 4] : List Nat).length = 1 * 1 * 4) ∧
    ∃ out, write_tga_rle ⟨some (fun _ => 0), some (some 20)⟩ [1, 2, 3, 4] 1 1 = .ok out ∧
      out.file.bytes = (tga_header 1 1 ++ packet_stream out.packets).take 20 :=
  ⟨⟨⟨by decide, by decide⟩, rfl⟩,
    write_failure_unchecked (fun _ => 0) (some 20) [1, 2, 3, 4] 1 1 ⟨by decide, by decide⟩
      ⟨by decide, by decide⟩ rfl⟩

/-- C6. Packet length bounds.  For a valid image, every packet written by the
packing loop covers `n` pixels with `1 ≤ n ≤ 128`, and `2 ≤ n` for a run
packet; the header byte written has bit `0x80` set exactly for a run packet;
`(header & 0x7F) + 1 = n`, so nothing is lost when the length is cast to a byte;
and the `n` pixels from the packet's start lie inside the buffer. -/
theorem packet_length_bounds (junk : Nat → Nat) (room : Option Nat) (rgba : List Nat)
    (W H : Nat) (hW : 1 ≤ W ∧ W ≤ 65535) (hH : 1 ≤ H ∧ H ≤ 65535)
    (hr : rgba.length = W * H * 4) :
    ∃ out, write_tga_rle ⟨some junk, some room⟩ rgba W H = .ok out ∧
      ∀ p ∈ out.packets,
        1 ≤ p.len ∧ p.len ≤ 128 ∧ (p.is_run = true → 2 ≤ p.len) ∧
        (p.header &&& 0x80 ≠ 0 ↔ p.is_run = true) ∧
        (p.header &&& 0x7F) + 1 = p.len ∧ p.header < 256 ∧
        p.start + p.len ≤ W * H := by
  obtain ⟨pix, ps, hout, _, _, _, hsound⟩ := write_tga_rle_spec junk room hW.2 hH.2 hr
  refine ⟨_, hout, ?_⟩
  intro p hp
  obtain ⟨hN, h128, hrun, hraw⟩ := hsound p hp
  cases hk : p.is_run with
  | true =>
    obtain ⟨h2, hhdr, _⟩ := hrun hk
    obtain ⟨hb1, hb2⟩ := run_header_bits h2 h128
    rw [hhdr]
    exact ⟨by omega, h128, fun _ => h2, ⟨fun _ => rfl, fun _ => hb1⟩, hb2, by omega, hN⟩
  | false =>
    obtain ⟨h1, hhdr, _⟩ := hraw hk
    obtain ⟨hb1, hb2⟩ := raw_header_bits h1 h128
    rw [hhdr]
    exact ⟨h1, h128, fun h => Bool.noConfusion h,
      ⟨fun h => absurd hb1 h, fun h => Bool.noConfusion h⟩, hb2, by omega, hN⟩

/-- Instance of C6: a 3x2 image packed as raw, run, raw, run. -/
theorem packet_length_bounds_witness :
    ((1 ≤ 3 ∧ 3 ≤ 65535) ∧ (1 ≤ 2 ∧ 2 ≤ 65535)) ∧
    ∃ out, write_tga_rle ⟨some (fun _ => 0), some none⟩
        [9, 9, 9, 9, 1, 1, 1, 1, 1, 1, 1, 1, 2, 2, 2, 2, 3, 3, 3, 3, 3, 3, 3, 3] 3 2 = .ok out ∧
      ∀ p ∈ out.packets,
        1 ≤ p.len ∧ p.len ≤ 128 ∧ (p.is_run = true → 2 ≤ p.len) ∧
        (p.header &&& 0x80 ≠ 0 ↔ p.is_run = true) ∧
        (p.header &&& 0x7F) + 1 = p.len ∧ p.header < 256 ∧
        p.start + p.len ≤ 3 * 2 :=
  ⟨⟨⟨by decide, by decide⟩, ⟨by decide, by decide⟩⟩,
    packet_length_bounds (fun _ => 0) none _ 3 2 ⟨by decide, by decide⟩
      ⟨by decide, by decide⟩ rfl⟩

/-- C7. Run-packet minimality.  For a valid image, no two packets written one
after the other are both run packets carrying the same pixel with lengths that
sum to at most 128. -/
theorem run_packet_minimality (junk : Nat → Nat) (room : Option Nat) (rgba : List Nat)
    (W H : Nat) (hW : 1 ≤ W ∧ W ≤ 65535) (hH : 1 ≤ H ∧ H ≤ 65535)
    (hr : rgba.length = W * H * 4) :
    ∃ out, write_tga_rle ⟨some junk, some room⟩ rgba W H = .ok out ∧
      ∀ (l1 : List Packet) (p q : Packet) (l2 : List Packet),
        out.packets = l1 ++ p :: q :: l2 →
        ¬ (p.is_run = true ∧ q.is_run = true ∧ p.payload = q.payload ∧
            p.len + q.len ≤ 128) := by
  obtain ⟨pix, ps, hout, _, _, hch, hsound⟩ := write_tga_rle_spec junk room hW.2 hH.2 hr
  refine ⟨_, hout, ?_⟩
  intro l1 p q l2 hsplit
  replace hsplit : ps = l1 ++ p :: q :: l2 := hsplit
  rintro ⟨hp, hq, hpay, hsum⟩
  have hadj : q.start = p.start + p.len := chained_adjacent l1 0 p q l2 (hsplit ▸ hch)
  obtain ⟨_, _, hprun, _⟩ := hsound p (by rw [hsplit]; simp)
  obtain ⟨hqN, _, hqrun, _⟩ := hsound q (by rw [hsplit]; simp)
  obtain ⟨hp2, _, hppay, _, hpmax⟩ := hprun hp
  obtain ⟨hq2, _, hqpay, _, _⟩ := hqrun hq
  rcases hpmax with h | h | h
  · omega
  · omega
  · apply h
    rw [← hadj, ← hqpay, ← hppay, hpay]

/-- Instance of C7: 130 equal pixels in one row, packed as a run of 128 followed
by a run of 2 of the same pixel. -/
theorem run_packet_minimality_witness :
    ((1 ≤ 130 ∧ 130 ≤ 65535) ∧ (1 ≤ 1 ∧ 1 ≤ 65535)) ∧
    ∃ out, write_tga_rle ⟨some (fun _ => 0), some none⟩
        (List.replicate (130 * 1 * 4) 7) 130 1 = .ok out ∧
      ∀ (l1 : List Packet) (p q : Packet) (l2 : List Packet),
        out.packets = l1 ++ p :: q :: l2 →
        ¬ (p.is_run = true ∧ q.is_run = true ∧ p.payload = q.payload ∧
            p.len + q.len ≤ 128) :=
  ⟨⟨⟨by decide, by decide⟩, ⟨by decide, by decide⟩⟩,
    run_packet_minimality (fun _ => 0) none _ 130 1 ⟨by decide, by decide⟩
      ⟨by decide, by decide⟩ (List.length_replicate _ _)⟩

/-- C8. Single run packet.  For `2 ≤ n ≤ 128`, an `n x 1` image whose pixels
are all `(R, G, B, A)` is packed as exactly five bytes after the header:
`0x80 | (n - 1)`, then `B, G, R, A`. -/
theorem single_run_packet (junk : Nat → Nat) (rgba : List Nat) (n R G B A : Nat)
    (hn : 2 ≤ n ∧ n ≤ 128) (hr : rgba.length = n * 1 * 4)
    (hpx : ∀ x, x < n → px rgba x = [R, G, B, A]) :
    ∃ out, write_tga_rle ⟨some junk, some none⟩ rgba n 1 = .ok out ∧
      out.file.bytes.drop 18 = [0x80 ||| (n - 1), B, G, R, A] := by
  obtain ⟨pix, ps, hout, hlen, hdone, hch, hsound⟩ :=
    write_tga_rle_spec junk none (W := n) (H := 1) (by omega) (by omega) hr
  have hpix : ∀ x, x < n → px pix x = [B, G, R, A] := by
    intro x hx
    obtain ⟨r, g, b, a, h1, h2⟩ := pixel_done_px hr hx (by omega) (hdone 0 x hx (by omega))
    simp only [Nat.sub_self, Nat.zero_sub, Nat.zero_mul, Nat.zero_add] at h1 h2
    rw [hpx x hx] at h1
    injection h1 with e1 h1
    injection h1 with e2 h1
    injection h1 with e3 h1
    injection h1 with e4 _
    rw [h2, e1, e2, e3, e4]
  obtain ⟨p, rest, hps⟩ := chained_nonempty hch (by omega)
  subst hps
  have hstart : p.start = 0 := hch.1
  obtain ⟨hpN, hp128, hrun, hraw⟩ := hsound p (by simp)
  rw [hstart] at hpN
  have hkind : p.is_run = true := by
    cases hk : p.is_run with
    | true => rfl
    | false =>
      obtain ⟨h1, _, _, hne, _⟩ := hraw hk
      exact absurd ((hpix 0 (by omega)).trans (hpix 1 (by omega)).symm)
        (by have := hne 0 (by omega) (by omega)
            rwa [hstart] at this)
  obtain ⟨h2, hhdr, hpay, _, hmax⟩ := hrun hkind
  rw [hstart] at hmax hpay
  have hplen : p.len = n * 1 := by
    rcases hmax with h | h | h
    · omega
    · omega
    · by_contra hne
      apply h
      rw [Nat.zero_add, hpix p.len (by omega), hpix 0 (by omega)]
  have hrest : rest = [] := chained_single hch hsound hplen
  subst hrest
  refine ⟨_, hout, ?_⟩
  simp only [put_bytes_unbounded, List.nil_append]
  rw [List.drop_left' (tga_header_length n 1)]
  simp only [packet_stream, Packet.bytes, List.append_nil]
  rw [hhdr, hpay, hpix 0 (by omega), hplen, Nat.mul_one, run_header_lor (by omega) hn.2]

/-- Instance of C8: the 2x1 image (255,0,0,255),(255,0,0,255) gives
81 00 00 FF FF. -/
theorem single_run_packet_witness :
    ((2 ≤ 2 ∧ 2 ≤ 128) ∧ ∀ x, x < 2 → px [255, 0, 0, 255, 255, 0, 0, 255] x = [255, 0, 0, 255]) ∧
    ∃ out, write_tga_rle ⟨some (fun _ => 0), some none⟩ [255, 0, 0, 255, 255, 0, 0, 255] 2 1 =
        .ok out ∧
      out.file.bytes.drop 18 = [0x81, 0x00, 0x00, 0xFF, 0xFF] :=
  ⟨⟨⟨by decide, by decide⟩, by decide⟩,
    single_run_packet (fun _ => 0) [255, 0, 0, 255, 255, 0, 0, 255] 2 255 0 0 255
      ⟨by decide, by decide⟩ rfl (by decide)⟩

/-- C9. Single raw packet.  For `1 ≤ n ≤ 128`, an `n x 1` image in which no two
adjacent pixels are equal is packed as exactly `1 + 4 * n` bytes after the
header: the byte `n - 1`, whose bit `0x80` is clear, then the whole BGRA buffer,
that is the `n` pixels in their left-to-right order, each as `B, G, R, A`. -/
theorem single_raw_packet (junk : Nat → Nat) (rgba : List Nat) (n : Nat)
    (hn : 1 ≤ n ∧ n ≤ 128) (hr : rgba.length = n * 1 * 4)
    (hadj : ∀ x, x + 1 < n → px rgba x ≠ px rgba (x + 1)) :
    ∃ out, write_tga_rle ⟨some junk, some none⟩ rgba n 1 = .ok out ∧
      out.file.bytes.drop 18 = (n - 1) :: out.mem.pixels ∧
      (out.file.bytes.drop 18).length = 1 + 4 * n ∧
      (n - 1) &&& 0x80 = 0 ∧
      ∀ x, x < n → ∃ r g b a, px rgba x = [r, g, b, a] ∧
        px out.mem.pixels x = [b, g, r, a] := by
  obtain ⟨pix, ps, hout, hlen, hdone, hch, hsound⟩ :=
    write_tga_rle_spec junk none (W := n) (H := 1) (by omega) (by omega) hr
  have hsw : ∀ x, x < n → ∃ r g b a, px rgba x = [r, g, b, a] ∧ px pix x = [b, g, r, a] := by
    intro x hx
    obtain ⟨r, g, b, a, h1, h2⟩ := pixel_done_px hr hx (by omega) (hdone 0 x hx (by omega))
    simp only [Nat.sub_self, Nat.zero_sub, Nat.zero_mul, Nat.zero_add] at h1 h2
    exact ⟨r, g, b, a, h1, h2⟩
  have hpadj : ∀ x, x + 1 < n → px pix x ≠ px pix (x + 1) := by
    intro x hx heq
    obtain ⟨r, g, b, a, h1, h2⟩ := hsw x (by omega)
    obtain ⟨r1, g1, b1, a1, h3, h4⟩ := hsw (x + 1) hx
    rw [h2, h4] at heq
    injection heq with e1 heq
    injection heq with e2 heq
    injection heq with e3 heq
    injection heq with e4 _
    apply hadj x hx
    rw [h1, h3, e1, e2, e3, e4]
  obtain ⟨p, rest, hps⟩ := chained_nonempty hch (by omega)
  subst hps
  have hstart : p.start = 0 := hch.1
  obtain ⟨hpN, hp128, hrun, hraw⟩ := hsound p (by simp)
  rw [hstart] at hpN
  have hkind : p.is_run = false := by
    cases hk : p.is_run with
    | false => rfl
    | true =>
      obtain ⟨h2, _, _, hall, _⟩ := hrun hk
      have h := hall 1 (by omega)
      rw [hstart] at h
      exact absurd h.symm (hpadj 0 (by omega))
  obtain ⟨h1, hhdr, hpay, _, hmax⟩ := hraw hkind
  rw [hstart] at hmax hpay
  have hplen : p.len = n * 1 := by
    rcases hmax with h | h | h
    · omega
    · omega
    · exact absurd h.2 (by
        have := hpadj (0 + p.len) (by omega)
        exact this)
  have hrest : rest = [] := chained_single hch hsound hplen
  subst hrest
  have hstream : packet_stream [p] = (n - 1) :: pix := by
    simp only [packet_stream, Packet.bytes, List.append_nil]
    rw [hhdr, hpay, hplen, Nat.mul_one, Nat.zero_mul, List.drop_zero,
      List.take_of_length_le (by omega)]
  refine ⟨_, hout, ?_, ?_, (raw_header_bits hn.1 hn.2).1, hsw⟩
  · simp only [put_bytes_unbounded, List.nil_append]
    rw [List.drop_left' (tga_header_length n 1), hstream]
  · simp only [put_bytes_unbounded, List.nil_append]
    rw [List.drop_left' (tga_header_length n 1), hstream, List.length_cons, hlen]
    omega

/-- Instance of C9: the 3x1 image (1,2,3,4),(5,6,7,8),(1,2,3,4) gives
02 03 02 01 04 07 06 05 08 03 02 01 04. -/
theorem single_raw_packet_witness :
    ((1 ≤ 3 ∧ 3 ≤ 128) ∧
      ∀ x, x + 1 < 3 → px [1, 2, 3, 4, 5, 6, 7, 8, 1, 2, 3, 4] x ≠
        px [1, 2, 3, 4, 5, 6, 7, 8, 1, 2, 3, 4] (x + 1)) ∧
    (∃ out, write_tga_rle ⟨some (fun _ => 0), some none⟩
        [1, 2, 3, 4, 5, 6, 7, 8, 1, 2, 3, 4] 3 1 = .ok out ∧
      out.file.bytes.drop 18 = (3 - 1) :: out.mem.pixels ∧
      (out.file.bytes.drop 18).length = 1 + 4 * 3 ∧
      (3 - 1) &&& 0x80 = 0 ∧
      ∀ x, x < 3 → ∃ r g b a, px [1, 2, 3, 4, 5, 6, 7, 8, 1, 2, 3, 4] x = [r, g, b, a] ∧
        px out.mem.pixels x = [b, g, r, a]) ∧
    (∃ out, write_tga_rle ⟨some (fun _ => 0), some none⟩
        [1, 2, 3, 4, 5, 6, 7, 8, 1, 2, 3, 4] 3 1 = .ok out ∧
      out.file.bytes.drop 18 = [0x02, 3, 2, 1, 4, 7, 6, 5, 8, 3, 2, 1, 4]) := by
  have hadj : ∀ x, x + 1 < 3 → px [1, 2, 3, 4, 5, 6, 7, 8, 1, 2, 3, 4] x ≠
      px [1, 2, 3, 4, 5, 6, 7, 8, 1, 2, 3, 4] (x + 1) := by
    intro x hx
    have hx2 : x < 2 := by omega
    interval_cases x <;> decide
  exact ⟨⟨⟨by decide, by decide⟩, hadj⟩,
    single_raw_packet (fun _ => 0) [1, 2, 3, 4, 5, 6, 7, 8, 1, 2, 3, 4] 3
      ⟨by decide, by decide⟩ rfl hadj,
    ⟨_, rfl, rfl⟩⟩

/-- C10. Total pixel count.  For an image with both dimensions in 1..65535, the
counts decoded from the header bytes of the packets written, `(header & 0x7F) +
1`, add up to `W * H`; and the packing loop stops with `i = W * H`. -/
theorem total_pixel_count (junk : Nat → Nat) (room : Option Nat) (rgba : List Nat)
    (W H : Nat) (hW : 1 ≤ W ∧ W ≤ 65535) (hH : 1 ≤ H ∧ H ≤ 65535)
    (hr : rgba.length = W * H * 4) :
    ∃ out, write_tga_rle ⟨some junk, some room⟩ rgba W H = .ok out ∧
      (out.packets.map (fun p => (p.header &&& 0x7F) + 1)).sum = W * H ∧
      out.last_i = W * H := by
  obtain ⟨pix, ps, hout, _, _, hch, hsound⟩ := write_tga_rle_spec junk room hW.2 hH.2 hr
  refine ⟨_, hout, ?_, rfl⟩
  have hmap : ps.map (fun p => (p.header &&& 0x7F) + 1) = ps.map Packet.len := by
    apply List.map_congr_left
    intro p hp
    obtain ⟨_, h128, hrun, hraw⟩ := hsound p hp
    cases hk : p.is_run with
    | true =>
      obtain ⟨h2, hhdr, _⟩ := hrun hk
      rw [hhdr]
      exact (run_header_bits h2 h128).2
    | false =>
      obtain ⟨h1, hhdr, _⟩ := hraw hk
      rw [hhdr]
      exact (raw_header_bits h1 h128).2
  show (ps.map (fun p => (p.header &&& 0x7F) + 1)).sum = W * H
  rw [hmap]
  have := chained_sum_len ps 0 hch
  omega

/-- Instance of C10: a 3x2 image packed as raw, run, raw, run. -/
theorem total_pixel_count_witness :
    ((1 ≤ 3 ∧ 3 ≤ 65535) ∧ (1 ≤ 2 ∧ 2 ≤ 65535)) ∧
    ∃ out, write_tga_rle ⟨some (fun _ => 0), some none⟩
        [9, 9, 9, 9, 1, 1, 1, 1, 1, 1, 1, 1, 2, 2, 2, 2, 3, 3, 3, 3, 3, 3, 3, 3] 3 2 = .ok out ∧
      (out.packets.map (fun p => (p.header &&& 0x7F) + 1)).sum = 3 * 2 ∧
      out.last_i = 3 * 2 :=
  ⟨⟨⟨by decide, by decide⟩, ⟨by decide, by decide⟩⟩,
    total_pixel_count (fun _ => 0) none _ 3 2 ⟨by decide, by decide⟩
      ⟨by decide, by decide⟩ rfl⟩

/-! ## Further facts about chains of packets -/

theorem chained_count_bounds {N : Nat} :
    ∀ (ps : List Packet) (i : Nat), chained i ps N → (∀ p ∈ ps, p.len ≤ 128) →
      i + ps.length ≤ N ∧ N ≤ i + 128 * ps.length := by
  intro ps
  induction ps with
  | nil =>
    intro i h _
    have : i = N := h
    simp only [List.length_nil]
    omega
  | cons p ps ih =>
    intro i h hle
    obtain ⟨_, h1, hrest⟩ := h
    have h128 := hle p (List.mem_cons_self _ _)
    have := ih _ hrest (fun q hq => hle q (List.mem_cons_of_mem _ hq))
    simp only [List.length_cons]
    omega

theorem chained_start {N : Nat} :
    ∀ (l1 : List Packet) (i : Nat) (p : Packet) (l2 : List Packet),
      chained i (l1 ++ p :: l2) N → p.start = i + (l1.map Packet.len).sum := by
  intro l1
  induction l1 with
  | nil =>
    intro i p l2 h
    simpa using h.1
  | cons a l1 ih =>
    intro i p l2 h
    have := ih _ p l2 h.2.2
    simp only [List.map_cons, List.sum_cons]
    omega

theorem sound_kind {P : List Nat} {N : Nat} {p : Packet} (hs : p.sound P N) :
    p.is_run = true ↔ (p.start + 1 < N ∧ px P (p.start + 1) = px P p.start) := by
  obtain ⟨hN, _, hrun, hraw⟩ := hs
  constructor
  · intro hk
    obtain ⟨h2, _, _, hall, _⟩ := hrun hk
    exact ⟨by omega, hall 1 (by omega)⟩
  · intro ⟨hlt, heq⟩
    cases hk : p.is_run with
    | true => rfl
    | false =>
      obtain ⟨h1, _, _, hne, _⟩ := hraw hk
      exact absurd heq.symm (hne 0 (by omega) (by omega))

theorem raw_then_run {P : List Nat} {N : Nat} {p q : Packet} (hp : p.sound P N)
    (hq : q.sound P N) (hadj : q.start = p.start + p.len) (hq1 : 1 ≤ q.len)
    (hraw : p.is_run = false) (hshort : p.len < 128) : q.is_run = true := by
  obtain ⟨_, _, _, hpraw⟩ := hp
  obtain ⟨_, _, _, _, hstop⟩ := hpraw hraw
  have hqN := hq.1
  rcases hstop with h | h | ⟨h1, h2⟩
  · omega
  · omega
  · rw [sound_kind hq, hadj]
    exact ⟨h1, h2.symm⟩

/-! ## The claims, continued -/

/-- C11. Packet count bounds.  For a valid image of `N = W * H ≥ 1` pixels the
number `P` of packets written satisfies `ceil(N / 128) ≤ P ≤ N`. -/
theorem packet_count_bounds (junk : Nat → Nat) (room : Option Nat) (rgba : List Nat)
    (W H : Nat) (hW : 1 ≤ W ∧ W ≤ 65535) (hH : 1 ≤ H ∧ H ≤ 65535)
    (hr : rgba.length = W * H * 4) :
    ∃ out, write_tga_rle ⟨some junk, some room⟩ rgba W H = .ok out ∧
      (W * H + 127) / 128 ≤ out.packets.length ∧ out.packets.length ≤ W * H ∧
      1 ≤ W * H := by
  obtain ⟨pix, ps, hout, _, _, hch, hsound⟩ := write_tga_rle_spec junk room hW.2 hH.2 hr
  refine ⟨_, hout, ?_⟩
  have hb := chained_count_bounds ps 0 hch (fun p hp => (hsound p hp).2.1)
  have hpos : 1 ≤ W * H := Nat.mul_le_mul hW.1 hH.1
  show (W * H + 127) / 128 ≤ ps.length ∧ ps.length ≤ W * H ∧ 1 ≤ W * H
  omega

/-- Instance of C11: 130 equal pixels in one row make two packets, and
`ceil(130 / 128) = 2`. -/
theorem packet_count_bounds_witness :
    ((1 ≤ 130 ∧ 130 ≤ 65535) ∧ (1 ≤ 1 ∧ 1 ≤ 65535)) ∧
    ∃ out, write_tga_rle ⟨some (fun _ => 0), some none⟩
        (List.replicate (130 * 1 * 4) 7) 130 1 = .ok out ∧
      (130 * 1 + 127) / 128 ≤ out.packets.length ∧ out.packets.length ≤ 130 * 1 ∧
      1 ≤ 130 * 1 :=
  ⟨⟨⟨by decide, by decide⟩, ⟨by decide, by decide⟩⟩,
    packet_count_bounds (fun _ => 0) none _ 130 1 ⟨by decide, by decide⟩
      ⟨by decide, by decide⟩ (List.length_replicate _ _)⟩

/-! ## Outcomes of the writer and of the loader -/

theorem write_tga_rle_outcome (env : Env) {rgba : List Nat} {W H : Nat}
    (hr : rgba.length = W * H * 4) :
    ((W > 65535 ∨ H > 65535) ∧ write_tga_rle env rgba W H = .error .DimensionTooLarge) ∨
    (W ≤ 65535 ∧ H ≤ 65535 ∧ env.heap = none ∧
      write_tga_rle env rgba W H = .error .OutOfMemory) ∨
    (W ≤ 65535 ∧ H ≤ 65535 ∧ env.heap ≠ none ∧ env.sink = none ∧
      write_tga_rle env rgba W H = .error .OutputOpenFailed) ∨
    (W ≤ 65535 ∧ H ≤ 65535 ∧ env.heap ≠ none ∧ env.sink ≠ none ∧
      ∃ out, write_tga_rle env rgba W H = .ok out) := by
  by_cases hd : W > 65535 ∨ H > 65535
  · left
    refine ⟨hd, ?_⟩
    unfold write_tga_rle
    rw [if_pos hd]
  · right
    have hw : W ≤ 65535 := by omega
    have hh : H ≤ 65535 := by omega
    obtain ⟨heap, sink⟩ := env
    cases heap with
    | none =>
      left
      refine ⟨hw, hh, rfl, ?_⟩
      unfold write_tga_rle
      rw [if_neg hd]
    | some junk =>
      right
      cases sink with
      | none =>
        left
        refine ⟨hw, hh, by simp, rfl, ?_⟩
        obtain ⟨m, hm, _⟩ :=
          row_loop_spec hw hh hr (H + 1) 0 ⟨rgba, (List.range (W * H * 4)).map junk⟩
            (by omega) (by omega) rfl (by simp) (by intro y1 x1 _ h; omega)
        have hwh := dim_mul_le hw hh
        unfold write_tga_rle
        rw [if_neg hd]
        simp only []
        rw [size_t_eq (show W < 18446744073709551616 by omega),
          size_t_eq (show H < 18446744073709551616 by omega),
          size_t_eq (show W * H < 18446744073709551616 by omega),
          size_t_eq (show W * H * 4 < 18446744073709551616 by omega), hm]
      | some room =>
        right
        obtain ⟨pix, ps, hout, _⟩ := write_tga_rle_spec junk room hw hh hr
        exact ⟨hw, hh, by simp, by simp, _, hout⟩

theorem load_png_rgba_ok {e : PngEnv} {buf : List Nat} {w h : Nat}
    (hl : load_png_rgba e = .ok (buf, w, h)) :
    w = uint32_t e.width ∧ h = uint32_t e.height ∧
      size_t e.rowbytes = size_t (uint32_t (w * 4)) ∧
      buf.length = size_t (size_t e.rowbytes * h) := by
  unfold load_png_rgba at hl
  by_cases h1 : e.opened = false
  · rw [if_pos h1] at hl; exact Except.noConfusion hl
  rw [if_neg h1] at hl
  by_cases h2 : e.signature = false
  · rw [if_pos h2] at hl; exact Except.noConfusion hl
  rw [if_neg h2] at hl
  by_cases h3 : e.read_struct = false
  · rw [if_pos h3] at hl; exact Except.noConfusion hl
  rw [if_neg h3] at hl
  by_cases h4 : e.info_struct = false
  · rw [if_pos h4] at hl; exact Except.noConfusion hl
  rw [if_neg h4] at hl
  by_cases h5 : e.info_fails = true
  · rw [if_pos h5] at hl; exact Except.noConfusion hl
  rw [if_neg h5] at hl
  cases hp : e.pixels with
  | none =>
    rw [hp] at hl
    exact Except.noConfusion hl
  | some content =>
    rw [hp] at hl
    simp only [] at hl
    by_cases h6 : e.row_pointers = false
    · rw [if_pos h6] at hl; exact Except.noConfusion hl
    rw [if_neg h6] at hl
    by_cases h7 : e.image_fails = true
    · rw [if_pos h7] at hl; exact Except.noConfusion hl
    rw [if_neg h7] at hl
    by_cases h8 : size_t e.rowbytes ≠ size_t (uint32_t (uint32_t e.width * 4))
    · rw [if_pos h8] at hl; exact Except.noConfusion hl
    rw [if_neg h8] at hl
    injection hl with hl
    injection hl with hb hl
    injection hl with hw hh
    subst hw hh
    refine ⟨rfl, rfl, not_not.mp h8, ?_⟩
    rw [← hb, List.length_map, List.length_range]

theorem load_png_rgba_wellformed {e : PngEnv} {buf : List Nat} {w h : Nat}
    (hl : load_png_rgba e = .ok (buf, w, h)) (hw : w ≤ 65535) (hh : h ≤ 65535) :
    buf.length = w * h * 4 := by
  obtain ⟨_, _, hrow, hlen⟩ := load_png_rgba_ok hl
  have hwh := dim_mul_le hw hh
  rw [uint32_t_eq (show w * 4 < 4294967296 by omega),
    size_t_eq (show w * 4 < 18446744073709551616 by omega)] at hrow
  rw [hrow, Nat.mul_right_comm w 4 h,
    size_t_eq (show w * h * 4 < 18446744073709551616 by omega)] at hlen
  exact hlen

/-- C12. Exit codes.  With an argument count other than 3, `main` returns 1 and
calls neither the loader nor the writer.  With argument count 3 it returns 0
exactly when `load_png_rgba` succeeds and `write_tga_rle`, called on what the
loader produced, succeeds too; otherwise it returns 1.  After a failed load it
has called the loader only; after a successful load it has called the loader
and then the writer.  The writer, called on what the loader produced, succeeds
exactly when both dimensions are at most 65535 and `malloc` and `fopen`
succeed. -/
theorem exit_codes (argc : Int) (png : PngEnv) (env : Env) :
    (argc ≠ 3 → main argc png env = ⟨1, []⟩) ∧
    (argc = 3 →
      ((main argc png env).exit_code = 0 ↔
        ∃ buf w h out, load_png_rgba png = .ok (buf, w, h) ∧
          write_tga_rle env buf w h = .ok out) ∧
      ((main argc png env).exit_code = 0 ∨ (main argc png env).exit_code = 1) ∧
      ((∀ img, load_png_rgba png ≠ .ok img) →
        main argc png env = ⟨1, [Call.load_png_rgba]⟩) ∧
      (∀ buf w h, load_png_rgba png = .ok (buf, w, h) →
        (main argc png env).calls = [Call.load_png_rgba, Call.write_tga_rle] ∧
        ((∀ out, write_tga_rle env buf w h ≠ .ok out) → main argc png env =
          ⟨1, [Call.load_png_rgba, Call.write_tga_rle]⟩) ∧
        ((∃ out, write_tga_rle env buf w h = .ok out) ↔
          (w ≤ 65535 ∧ h ≤ 65535 ∧ env.heap ≠ none ∧ env.sink ≠ none)))) := by
  refine ⟨fun hne => ?_, fun h3 => ?_⟩
  · unfold main
    rw [if_pos hne]
  · subst h3
    have hmain : main 3 png env =
        match load_png_rgba png with
        | .error _ => ⟨1, [Call.load_png_rgba]⟩
        | .ok (pixels, width, height) =>
          match write_tga_rle env pixels width height with
          | .error _ => ⟨1, [Call.load_png_rgba, Call.write_tga_rle]⟩
          | .ok _ => ⟨0, [Call.load_png_rgba, Call.write_tga_rle]⟩ := by
      unfold main
      rw [if_neg (by decide)]
    rw [hmain]
    cases hl : load_png_rgba png with
    | error e =>
      refine ⟨⟨fun h => absurd h Nat.one_ne_zero, fun ⟨_, _, _, _, h, _⟩ => Except.noConfusion h⟩,
        Or.inr rfl, fun _ => rfl, fun _ _ _ h => Except.noConfusion h⟩
    | ok img =>
      obtain ⟨buf, w, h⟩ := img
      simp only []
      have hwf : w ≤ 65535 → h ≤ 65535 → buf.length = w * h * 4 :=
        load_png_rgba_wellformed hl
      have hiff : (∃ out, write_tga_rle env buf w h = .ok out) ↔
          (w ≤ 65535 ∧ h ≤ 65535 ∧ env.heap ≠ none ∧ env.sink ≠ none) := by
        constructor
        · rintro ⟨out, hout⟩
          by_cases hd : w > 65535 ∨ h > 65535
          · unfold write_tga_rle at hout
            rw [if_pos hd] at hout
            exact Except.noConfusion hout
          · have hw : w ≤ 65535 := by omega
            have hh : h ≤ 65535 := by omega
            rcases write_tga_rle_outcome env (hwf hw hh) with
              ⟨_, he⟩ | ⟨_, _, _, he⟩ | ⟨_, _, _, _, he⟩ | ⟨_, _, h1, h2, _⟩
            · rw [he] at hout; exact Except.noConfusion hout
            · rw [he] at hout; exact Except.noConfusion hout
            · rw [he] at hout; exact Except.noConfusion hout
            · exact ⟨hw, hh, h1, h2⟩
        · rintro ⟨hw, hh, h1, h2⟩
          rcases write_tga_rle_outcome env (hwf hw hh) with
            ⟨hd, _⟩ | ⟨_, _, h3, _⟩ | ⟨_, _, _, h3, _⟩ | ⟨_, _, _, _, he⟩
          · omega
          · exact absurd h3 h1
          · exact absurd h3 h2
          · exact he
      cases hwr : write_tga_rle env buf w h with
      | error e =>
        refine ⟨⟨fun h => absurd h Nat.one_ne_zero, ?_⟩, Or.inr rfl,
          fun hno => absurd rfl (hno (buf, w, h)), ?_⟩
        · rintro ⟨b1, w1, h1, out, he, ho⟩
          injection he with he
          injection he with e1 he
          injection he with e2 e3
          subst e1 e2 e3
          rw [hwr] at ho
          exact Except.noConfusion ho
        · intro b1 w1 h1 he
          injection he with he
          injection he with e1 he
          injection he with e2 e3
          subst e1 e2 e3
          rw [hwr]
          exact ⟨rfl, fun _ => rfl, by rw [← hwr]; exact hiff⟩
      | ok out =>
        refine ⟨⟨fun _ => ⟨buf, w, h, out, rfl, hwr⟩, fun _ => rfl⟩, Or.inl rfl,
          fun hno => absurd rfl (hno (buf, w, h)), ?_⟩
        intro b1 w1 h1 he
        injection he with he
        injection he with e1 he
        injection he with e2 e3
        subst e1 e2 e3
        rw [hwr]
        exact ⟨rfl, fun hno => absurd rfl (hno out), by rw [← hwr]; exact hiff⟩

/-- Instance of C12: two arguments and a loader that decodes a 2x1 image give
exit code 0 after both calls; one argument gives exit code 1 and no call; a file
that cannot be opened gives exit code 1 after the loader alone. -/
theorem exit_codes_witness :
    ((2 : Int) ≠ 3 ∧
      main 2 ⟨true, true, true, true, false, 2, 1, 8, some (fun k => k), true, false⟩
        ⟨some (fun _ => 0), some none⟩ = ⟨1, []⟩) ∧
    ((3 : Int) = 3 ∧
      (main 3 ⟨true, true, true, true, false, 2, 1, 8, some (fun k => k), true, false⟩
        ⟨some (fun _ => 0), some none⟩).exit_code = 0) ∧
    main 3 ⟨false, true, true, true, false, 2, 1, 8, some (fun k => k), true, false⟩
      ⟨some (fun _ => 0), some none⟩ = ⟨1, [Call.load_png_rgba]⟩ :=
  ⟨⟨by decide, (exit_codes 2 _ _).1 (by decide)⟩,
    ⟨rfl, ((exit_codes 3 ⟨true, true, true, true, false, 2, 1, 8, some (fun k => k), true, false⟩
      ⟨some (fun _ => 0), some none⟩).2 rfl).1.mpr ⟨_, _, _, _, rfl, rfl⟩⟩,
    ((exit_codes 3 ⟨false, true, true, true, false, 2, 1, 8, some (fun k => k), true, false⟩
      ⟨some (fun _ => 0), some none⟩).2 rfl).2.2.1 (fun _ h => Except.noConfusion h)⟩

/-- C13. Longest run, capped at 128.  For a valid image of `N = W * H` pixels
and every packet written: if it is a run packet of length `r` starting at `i`,
then the pixels `i .. i + r - 1` all equal pixel `i`, they lie in the buffer,
`r ≤ 128`, and `r = 128` or `i + r = N` or pixel `i + r` differs from pixel
`i`; and the packet written at `i` is a run packet exactly when pixel `i + 1`
exists and equals pixel `i`. -/
theorem longest_run (junk : Nat → Nat) (room : Option Nat) (rgba : List Nat)
    (W H : Nat) (hW : 1 ≤ W ∧ W ≤ 65535) (hH : 1 ≤ H ∧ H ≤ 65535)
    (hr : rgba.length = W * H * 4) :
    ∃ out, write_tga_rle ⟨some junk, some room⟩ rgba W H = .ok out ∧
      ∀ p ∈ out.packets,
        (p.is_run = true →
          (∀ k, k < p.len → px out.mem.pixels (p.start + k) = px out.mem.pixels p.start) ∧
          p.start + p.len ≤ W * H ∧ p.len ≤ 128 ∧
          (p.len = 128 ∨ p.start + p.len = W * H ∨
            px out.mem.pixels (p.start + p.len) ≠ px out.mem.pixels p.start)) ∧
        (p.is_run = true ↔
          (p.start + 1 < W * H ∧ px out.mem.pixels (p.start + 1) = px out.mem.pixels p.start)) := by
  obtain ⟨pix, ps, hout, _, _, _, hsound⟩ := write_tga_rle_spec junk room hW.2 hH.2 hr
  refine ⟨_, hout, ?_⟩
  intro p hp
  have hs := hsound p hp
  refine ⟨fun hk => ?_, sound_kind hs⟩
  obtain ⟨hN, h128, hrun, _⟩ := hs
  obtain ⟨_, _, _, hall, hmax⟩ := hrun hk
  exact ⟨hall, hN, h128, hmax⟩

/-- Instance of C13: 130 equal pixels in one row, packed as a run of 128 (cut by
the cap) and a run of 2 (cut by the end of the buffer). -/
theorem longest_run_witness :
    ((1 ≤ 130 ∧ 130 ≤ 65535) ∧ (1 ≤ 1 ∧ 1 ≤ 65535)) ∧
    ∃ out, write_tga_rle ⟨some (fun _ => 0), some none⟩
        (List.replicate (130 * 1 * 4) 7) 130 1 = .ok out ∧
      ∀ p ∈ out.packets,
        (p.is_run = true →
          (∀ k, k < p.len → px out.mem.pixels (p.start + k) = px out.mem.pixels p.start) ∧
          p.start + p.len ≤ 130 * 1 ∧ p.len ≤ 128 ∧
          (p.len = 128 ∨ p.start + p.len = 130 * 1 ∨
            px out.mem.pixels (p.start + p.len) ≠ px out.mem.pixels p.start)) ∧
        (p.is_run = true ↔
          (p.start + 1 < 130 * 1 ∧
            px out.mem.pixels (p.start + 1) = px out.mem.pixels p.start)) :=
  ⟨⟨⟨by decide, by decide⟩, ⟨by decide, by decide⟩⟩,
    longest_run (fun _ => 0) none _ 130 1 ⟨by decide, by decide⟩
      ⟨by decide, by decide⟩ (List.length_replicate _ _)⟩

/-- C14. Raw packets stop before runs.  For a valid image of `N = W * H` pixels
and every raw packet written for the pixels `i .. i + n - 1`, every pixel `k` in
that range with `k + 1 < N` differs from pixel `k + 1`; in particular the last
pixel of a raw packet differs from the first pixel of the packet written after
it. -/
theorem raw_stops_before_run (junk : Nat → Nat) (room : Option Nat) (rgba : List Nat)
    (W H : Nat) (hW : 1 ≤ W ∧ W ≤ 65535) (hH : 1 ≤ H ∧ H ≤ 65535)
    (hr : rgba.length = W * H * 4) :
    ∃ out, write_tga_rle ⟨some junk, some room⟩ rgba W H = .ok out ∧
      (∀ p ∈ out.packets, p.is_run = false →
        ∀ k, p.start ≤ k → k < p.start + p.len → k + 1 < W * H →
          px out.mem.pixels k ≠ px out.mem.pixels (k + 1)) ∧
      (∀ (l1 : List Packet) (p q : Packet) (l2 : List Packet),
        out.packets = l1 ++ p :: q :: l2 → p.is_run = false →
          q.start = p.start + p.len ∧
          px out.mem.pixels (p.start + p.len - 1) ≠ px out.mem.pixels q.start) := by
  obtain ⟨pix, ps, hout, _, _, hch, hsound⟩ := write_tga_rle_spec junk room hW.2 hH.2 hr
  have hin : ∀ p ∈ ps, p.is_run = false →
      ∀ k, p.start ≤ k → k < p.start + p.len → k + 1 < W * H → px pix k ≠ px pix (k + 1) := by
    intro p hp hk k hk1 hk2 hkN
    obtain ⟨_, _, _, hraw⟩ := hsound p hp
    obtain ⟨_, _, _, hne, _⟩ := hraw hk
    have := hne (k - p.start) (by omega) (by rw [show p.start + (k - p.start) = k by omega]
                                             exact hkN)
    rwa [show p.start + (k - p.start) = k by omega] at this
  refine ⟨_, hout, hin, ?_⟩
  intro l1 p q l2 hsplit hk
  replace hsplit : ps = l1 ++ p :: q :: l2 := hsplit
  have hadj : q.start = p.start + p.len := chained_adjacent l1 0 p q l2 (hsplit ▸ hch)
  have hp := hsound p (by rw [hsplit]; simp)
  have hq := hsound q (by rw [hsplit]; simp)
  have hq1 : 1 ≤ q.len := by
    obtain ⟨_, _, hqrun, hqraw⟩ := hq
    cases hqk : q.is_run with
    | true => have := (hqrun hqk).1; omega
    | false => exact (hqraw hqk).1
  have hp1 : 1 ≤ p.len := (hp.2.2.2 hk).1
  have hqN := hq.1
  refine ⟨hadj, ?_⟩
  have := hin p (by rw [hsplit]; simp) hk (p.start + p.len - 1) (by omega) (by omega) (by omega)
  rwa [show p.start + p.len - 1 + 1 = q.start by omega] at this

/-- Instance of C14: a 3x2 image packed as raw, run, raw, run. -/
theorem raw_stops_before_run_witness :
    ((1 ≤ 3 ∧ 3 ≤ 65535) ∧ (1 ≤ 2 ∧ 2 ≤ 65535)) ∧
    ∃ out, write_tga_rle ⟨some (fun _ => 0), some none⟩
        [9, 9, 9, 9, 1, 1, 1, 1, 1, 1, 1, 1, 2, 2, 2, 2, 3, 3, 3, 3, 3, 3, 3, 3] 3 2 = .ok out ∧
      (∀ p ∈ out.packets, p.is_run = false →
        ∀ k, p.start ≤ k → k < p.start + p.len → k + 1 < 3 * 2 →
          px out.mem.pixels k ≠ px out.mem.pixels (k + 1)) ∧
      (∀ (l1 : List Packet) (p q : Packet) (l2 : List Packet),
        out.packets = l1 ++ p :: q :: l2 → p.is_run = false →
          q.start = p.start + p.len ∧
          px out.mem.pixels (p.start + p.len - 1) ≠ px out.mem.pixels q.start) :=
  ⟨⟨⟨by decide, by decide⟩, ⟨by decide, by decide⟩⟩,
    raw_stops_before_run (fun _ => 0) none _ 3 2 ⟨by decide, by decide⟩
      ⟨by decide, by decide⟩ rfl⟩

theorem sound_len_pos {P : List Nat} {N : Nat} {p : Packet} (hs : p.sound P N) :
    1 ≤ p.len := by
  obtain ⟨_, _, hrun, hraw⟩ := hs
  cases hk : p.is_run with
  | true => have := (hrun hk).1; omega
  | false => exact (hraw hk).1

/-- C16. Raw-packet maximality.  For a valid image, a raw packet written
immediately before another raw packet holds exactly 128 pixels; and a raw packet
of fewer than 128 pixels is the last packet or is immediately followed by a run
packet. -/
theorem raw_packet_maximality (junk : Nat → Nat) (room : Option Nat) (rgba : List Nat)
    (W H : Nat) (hW : 1 ≤ W ∧ W ≤ 65535) (hH : 1 ≤ H ∧ H ≤ 65535)
    (hr : rgba.length = W * H * 4) :
    ∃ out, write_tga_rle ⟨some junk, some room⟩ rgba W H = .ok out ∧
      (∀ (l1 : List Packet) (p q : Packet) (l2 : List Packet),
        out.packets = l1 ++ p :: q :: l2 → p.is_run = false → q.is_run = false →
          p.len = 128) ∧
      (∀ (l1 : List Packet) (p : Packet) (l2 : List Packet),
        out.packets = l1 ++ p :: l2 → p.is_run = false → p.len < 128 →
          l2 = [] ∨ ∃ q l3, l2 = q :: l3 ∧ q.is_run = true) := by
  obtain ⟨pix, ps, hout, _, _, hch, hsound⟩ := write_tga_rle_spec junk room hW.2 hH.2 hr
  have key : ∀ (l1 : List Packet) (p q : Packet) (l2 : List Packet),
      ps = l1 ++ p :: q :: l2 → p.is_run = false → p.len < 128 → q.is_run = true := by
    intro l1 p q l2 hsplit hk hshort
    have hadj : q.start = p.start + p.len := chained_adjacent l1 0 p q l2 (hsplit ▸ hch)
    have hp := hsound p (by rw [hsplit]; simp)
    have hq := hsound q (by rw [hsplit]; simp)
    exact raw_then_run hp hq hadj (sound_len_pos hq) hk hshort
  refine ⟨_, hout, ?_, ?_⟩
  · intro l1 p q l2 hsplit hk hqk
    have h128 : p.len ≤ 128 := (hsound p (by rw [show ps = _ from hsplit]; simp)).2.1
    by_contra hne
    have := key l1 p q l2 hsplit hk (by omega)
    rw [hqk] at this
    exact Bool.noConfusion this
  · intro l1 p l2 hsplit hk hshort
    cases l2 with
    | nil => exact Or.inl rfl
    | cons q l3 => exact Or.inr ⟨q, l3, rfl, key l1 p q l3 hsplit hk hshort⟩

/-- Instance of C16: 129 pixels in one row, no two adjacent ones equal, packed
as a raw packet of 128 followed by a raw packet of 1. -/
theorem raw_packet_maximality_witness :
    ((1 ≤ 129 ∧ 129 ≤ 65535) ∧ (1 ≤ 1 ∧ 1 ≤ 65535)) ∧
    ∃ out, write_tga_rle ⟨some (fun _ => 0), some none⟩ (List.range (129 * 1 * 4)) 129 1 =
        .ok out ∧
      (∀ (l1 : List Packet) (p q : Packet) (l2 : List Packet),
        out.packets = l1 ++ p :: q :: l2 → p.is_run = false → q.is_run = false →
          p.len = 128) ∧
      (∀ (l1 : List Packet) (p : Packet) (l2 : List Packet),
        out.packets = l1 ++ p :: l2 → p.is_run = false → p.len < 128 →
          l2 = [] ∨ ∃ q l3, l2 = q :: l3 ∧ q.is_run = true) :=
  ⟨⟨⟨by decide, by decide⟩, ⟨by decide, by decide⟩⟩,
    raw_packet_maximality (fun _ => 0) none _ 129 1 ⟨by decide, by decide⟩
      ⟨by decide, by decide⟩ (List.length_range _)⟩

/-! ## The packets are determined by the pixel sequence -/

theorem run_len_unique {P : List Nat} {N i r s : Nat} (hrN : i + r ≤ N) (hr128 : r ≤ 128)
    (hrall : ∀ k, k < r → px P (i + k) = px P i)
    (hsmax : s = 128 ∨ i + s = N ∨ px P (i + s) ≠ px P i) : r ≤ s := by
  by_contra hlt
  rcases hsmax with h | h | h
  · omega
  · omega
  · exact h (hrall s (by omega))

theorem raw_len_unique {P : List Nat} {N i r s : Nat} (hrN : i + r ≤ N) (hr128 : r ≤ 128)
    (hrall : ∀ k, k < r → i + k + 1 < N → px P (i + k) ≠ px P (i + k + 1))
    (hsmax : s = 128 ∨ i + s = N ∨ (i + s + 1 < N ∧ px P (i + s) = px P (i + s + 1))) :
    r ≤ s := by
  by_contra hlt
  rcases hsmax with h | h | ⟨h1, h2⟩
  · omega
  · omega
  · exact hrall s (by omega) h1 h2

theorem sound_unique {P : List Nat} {N : Nat} {p q : Packet} (hp : p.sound P N)
    (hq : q.sound P N) (hstart : p.start = q.start) : p = q := by
  have hkind : p.is_run = q.is_run := by
    have h1 := sound_kind hp
    have h2 := sound_kind hq
    rw [hstart] at h1
    cases hpk : p.is_run <;> cases hqk : q.is_run <;> simp_all
  obtain ⟨hpN, hp128, hprun, hpraw⟩ := hp
  obtain ⟨hqN, hq128, hqrun, hqraw⟩ := hq
  obtain ⟨pk, ps, pl, ph, pp⟩ := p
  obtain ⟨qk, qs, ql, qh, qp⟩ := q
  simp only at hstart hkind hpN hp128 hprun hpraw hqN hq128 hqrun hqraw
  subst hstart hkind
  cases pk with
  | true =>
    obtain ⟨_, hh1, hp1, ha1, hm1⟩ := hprun rfl
    obtain ⟨_, hh2, hp2, ha2, hm2⟩ := hqrun rfl
    have hlen : pl = ql :=
      Nat.le_antisymm (run_len_unique hpN hp128 ha1 hm2) (run_len_unique hqN hq128 ha2 hm1)
    subst hlen
    rw [hh1, hh2, hp1, hp2]
  | false =>
    obtain ⟨_, hh1, hp1, ha1, hm1⟩ := hpraw rfl
    obtain ⟨_, hh2, hp2, ha2, hm2⟩ := hqraw rfl
    have hlen : pl = ql :=
      Nat.le_antisymm (raw_len_unique hpN hp128 ha1 hm2) (raw_len_unique hqN hq128 ha2 hm1)
    subst hlen
    rw [hh1, hh2, hp1, hp2]

theorem chained_unique {P : List Nat} {N : Nat} :
    ∀ (ps qs : List Packet) (i : Nat), chained i ps N → chained i qs N →
      (∀ p ∈ ps, p.sound P N) → (∀ q ∈ qs, q.sound P N) → ps = qs := by
  intro ps
  induction ps with
  | nil =>
    intro qs i h1 h2 _ hq
    have hi : i = N := h1
    cases qs with
    | nil => rfl
    | cons q qs =>
      obtain ⟨hs, hl, _⟩ := h2
      have := (hq q (by simp)).1
      omega
  | cons p ps ih =>
    intro qs i h1 h2 hp hq
    obtain ⟨hps, hpl, hprest⟩ := h1
    cases qs with
    | nil =>
      have hi : i = N := h2
      have := (hp p (by simp)).1
      omega
    | cons q qs =>
      obtain ⟨hqs, hql, hqrest⟩ := h2
      have hpq : p = q := sound_unique (hp p (by simp)) (hq q (by simp)) (by rw [hps, hqs])
      subst hpq
      rw [ih qs (i + p.len) hprest hqrest (fun a ha => hp a (List.mem_cons_of_mem _ ha))
        (fun a ha => hq a (List.mem_cons_of_mem _ ha))]

theorem uniform_packets {P : List Nat} {N : Nat} {ps : List Packet} {v : List Nat}
    (hN : 2 ≤ N ∧ N ≤ 128) (hv : ∀ x, x < N → px P x = v) (hch : chained 0 ps N)
    (hs : ∀ p ∈ ps, p.sound P N) : ps = [⟨true, 0, N, 127 + N, v⟩] := by
  apply chained_unique ps _ 0 hch _ hs
  · intro q hq
    rw [List.mem_singleton] at hq
    subst hq
    refine ⟨by simp, hN.2, fun _ => ⟨hN.1, rfl, (hv 0 (by omega)).symm, ?_, Or.inr (Or.inl ?_)⟩,
      fun h => Bool.noConfusion h⟩
    · intro k hk
      show px P (0 + k) = px P 0
      rw [Nat.zero_add, hv k hk, hv 0 (by omega)]
    · show 0 + N = N
      omega
  · exact ⟨rfl, by show 1 ≤ N; omega, by show 0 + N = N; omega⟩

/-- C15. Packing ignores scanline boundaries.  Two valid images, of whatever
widths and heights, whose BGRA buffers after the row transform are the same
sequence of bytes, are packed into the same packets and the same bytes after
the header.  A packet may cover pixels of two scanlines: the 1x2 image whose
two rows both hold `(R, G, B, A)` is packed as the one run packet
`81 B G R A`, which starts at pixel 0 and covers 2 pixels. -/
theorem packing_ignores_scanlines (junk1 junk2 : Nat → Nat) (rgba1 rgba2 : List Nat)
    (W1 H1 W2 H2 R G B A : Nat)
    (hW1 : 1 ≤ W1 ∧ W1 ≤ 65535) (hH1 : 1 ≤ H1 ∧ H1 ≤ 65535)
    (hW2 : 1 ≤ W2 ∧ W2 ≤ 65535) (hH2 : 1 ≤ H2 ∧ H2 ≤ 65535)
    (hr1 : rgba1.length = W1 * H1 * 4) (hr2 : rgba2.length = W2 * H2 * 4) :
    (∃ out1 out2, write_tga_rle ⟨some junk1, some none⟩ rgba1 W1 H1 = .ok out1 ∧
      write_tga_rle ⟨some junk2, some none⟩ rgba2 W2 H2 = .ok out2 ∧
      (out1.mem.pixels = out2.mem.pixels →
        out1.packets = out2.packets ∧
        out1.file.bytes.drop 18 = out2.file.bytes.drop 18)) ∧
    (∃ out, write_tga_rle ⟨some junk1, some none⟩ [R, G, B, A, R, G, B, A] 1 2 = .ok out ∧
      out.packets = [⟨true, 0, 2, 0x81, [B, G, R, A]⟩] ∧
      out.file.bytes.drop 18 = [0x81, B, G, R, A]) := by
  constructor
  · obtain ⟨pix1, ps1, hout1, hlen1, _, hch1, hs1⟩ :=
      write_tga_rle_spec junk1 none hW1.2 hH1.2 hr1
    obtain ⟨pix2, ps2, hout2, hlen2, _, hch2, hs2⟩ :=
      write_tga_rle_spec junk2 none hW2.2 hH2.2 hr2
    refine ⟨_, _, hout1, hout2, ?_⟩
    intro hsame
    replace hsame : pix1 = pix2 := hsame
    subst hsame
    have hN : W1 * H1 = W2 * H2 := by omega
    rw [hN] at hch1 hs1
    have hps : ps1 = ps2 := chained_unique ps1 ps2 0 hch1 hch2 hs1 hs2
    subst hps
    refine ⟨rfl, ?_⟩
    simp only [put_bytes_unbounded, List.nil_append]
    rw [List.drop_left' (tga_header_length W1 H1), List.drop_left' (tga_header_length W2 H2)]
  · obtain ⟨pix, ps, hout, hlen, hdone, hch, hs⟩ :=
      @write_tga_rle_spec [R, G, B, A, R, G, B, A] 1 2 junk1 none (by decide) (by decide) rfl
    have hpix : ∀ x, x < 1 * 2 → px pix x = [B, G, R, A] := by
      intro x hx
      have hx2 : x < 2 := by omega
      obtain ⟨r, g, b, a, h1, h2⟩ :=
        @pixel_done_px [R, G, B, A, R, G, B, A] pix 1 2 x 0 rfl (by decide) hx2
          (hdone x 0 (by decide) hx2)
      have h3 : px [R, G, B, A, R, G, B, A] ((2 - 1 - x) * 1 + 0) = [R, G, B, A] := by
        interval_cases x <;> rfl
      rw [h3] at h1
      injection h1 with e1 h1
      injection h1 with e2 h1
      injection h1 with e3 h1
      injection h1 with e4 _
      rw [Nat.mul_one, Nat.add_zero] at h2
      rw [h2, e1, e2, e3, e4]
    have hps := uniform_packets (N := 1 * 2) (by decide) hpix hch hs
    subst hps
    refine ⟨_, hout, rfl, ?_⟩
    simp only [put_bytes_unbounded, List.nil_append]
    rw [List.drop_left' (tga_header_length 1 2)]
    rfl

/-- Instance of C15: the 6x1 image and the 3x2 image with the same six pixels in
bottom-to-top order; the run of the third and fourth pixel crosses the two rows
of the 3x2 image. -/
theorem packing_ignores_scanlines_witness :
    (((1 ≤ 6 ∧ 6 ≤ 65535) ∧ (1 ≤ 1 ∧ 1 ≤ 65535)) ∧ ((1 ≤ 3 ∧ 3 ≤ 65535) ∧ (1 ≤ 2 ∧ 2 ≤ 65535))) ∧
    ((∃ out1 out2, write_tga_rle ⟨some (fun _ => 0), some none⟩
        [2, 2, 2, 2, 2, 2, 2, 2, 3, 3, 3, 3, 3, 3, 3, 3, 9, 9, 9, 9, 9, 9, 9, 9] 6 1 = .ok out1 ∧
      write_tga_rle ⟨some (fun _ => 1), some none⟩
        [3, 3, 3, 3, 9, 9, 9, 9, 9, 9, 9, 9, 2, 2, 2, 2, 2, 2, 2, 2, 3, 3, 3, 3] 3 2 = .ok out2 ∧
      (out1.mem.pixels = out2.mem.pixels →
        out1.packets = out2.packets ∧
        out1.file.bytes.drop 18 = out2.file.bytes.drop 18)) ∧
    (∃ out, write_tga_rle ⟨some (fun _ => 0), some none⟩ [10, 20, 30, 40, 10, 20, 30, 40] 1 2 =
        .ok out ∧
      out.packets = [⟨true, 0, 2, 0x81, [30, 20, 10, 40]⟩] ∧
      out.file.bytes.drop 18 = [0x81, 30, 20, 10, 40])) ∧
    (∃ out1 out2, write_tga_rle ⟨some (fun _ => 0), some none⟩
        [2, 2, 2, 2, 2, 2, 2, 2, 3, 3, 3, 3, 3, 3, 3, 3, 9, 9, 9, 9, 9, 9, 9, 9] 6 1 = .ok out1 ∧
      write_tga_rle ⟨some (fun _ => 1), some none⟩
        [3, 3, 3, 3, 9, 9, 9, 9, 9, 9, 9, 9, 2, 2, 2, 2, 2, 2, 2, 2, 3, 3, 3, 3] 3 2 = .ok out2 ∧
      out1.mem.pixels = out2.mem.pixels ∧
      out2.file.bytes.drop 18 = [0x81, 2, 2, 2, 2, 0x81, 3, 3, 3, 3, 0x81, 9, 9, 9, 9]) :=
  ⟨⟨⟨⟨by decide, by decide⟩, ⟨by decide, by decide⟩⟩,
      ⟨⟨by decide, by decide⟩, ⟨by decide, by decide⟩⟩⟩,
    packing_ignores_scanlines (fun _ => 0) (fun _ => 1) _ _ 6 1 3 2 10 20 30 40
      ⟨by decide, by decide⟩ ⟨by decide, by decide⟩ ⟨by decide, by decide⟩
      ⟨by decide, by decide⟩ rfl rfl,
    ⟨_, _, rfl, rfl, rfl, rfl⟩⟩

/-! ## Size of the packet stream -/

theorem packet_bytes_length {P : List Nat} {N : Nat} (hP : P.length = N * 4) {p : Packet}
    (hs : p.sound P N) :
    (p.is_run = true → p.bytes.length = 5) ∧
    (p.is_run = false → p.bytes.length = 1 + 4 * p.len) := by
  obtain ⟨hN, _, hrun, hraw⟩ := hs
  constructor
  · intro hk
    obtain ⟨h2, _, hpay, _⟩ := hrun hk
    unfold Packet.bytes
    rw [List.length_cons, hpay, px_length (by omega)]
  · intro hk
    obtain ⟨_, _, hpay, _⟩ := hraw hk
    unfold Packet.bytes
    rw [List.length_cons, hpay, List.length_take, List.length_drop]
    omega

theorem stream_size_bound {P : List Nat} {N : Nat} (hP : P.length = N * 4) :
    ∀ (ps : List Packet) (i : Nat), chained i ps N → (∀ p ∈ ps, p.sound P N) →
      128 * (packet_stream ps).length + 513 * i ≤ 513 * N + 127 ∧
      (∀ q rest, ps = q :: rest → q.is_run = true →
        128 * (packet_stream ps).length + 128 + 513 * i ≤ 513 * N + 127) := by
  intro ps
  induction ps with
  | nil =>
    intro i hch _
    have hi : i = N := hch
    refine ⟨?_, fun q rest h => List.noConfusion h⟩
    simp only [packet_stream, List.length_nil]
    omega
  | cons p rest ih =>
    intro i hch hs
    obtain ⟨hstart, hlen1, hrest⟩ := hch
    have hsp := hs p (List.mem_cons_self _ _)
    have hsrest : ∀ q ∈ rest, q.sound P N := fun q hq => hs q (List.mem_cons_of_mem _ hq)
    obtain ⟨hA, hB⟩ := ih (i + p.len) hrest hsrest
    obtain ⟨hrunlen, hrawlen⟩ := packet_bytes_length hP hsp
    have h128 := hsp.2.1
    have hS : (packet_stream (p :: rest)).length = p.bytes.length + (packet_stream rest).length := by
      simp only [packet_stream, List.length_append]
    rw [hS]
    cases hk : p.is_run with
    | true =>
      have h2 : 2 ≤ p.len := (hsp.2.2.1 hk).1
      have h5 := hrunlen hk
      refine ⟨by omega, fun _ _ _ _ => by omega⟩
    | false =>
      have hb := hrawlen hk
      refine ⟨?_, fun q r hqr hq => ?_⟩
      · by_cases hfull : p.len = 128
        · omega
        · cases rest with
          | nil =>
            have hend : i + p.len = N := hrest
            simp only [packet_stream, List.length_nil]
            omega
          | cons q rest1 =>
            have hqs := hsrest q (List.mem_cons_self _ _)
            have hqrun : q.is_run = true :=
              raw_then_run hsp hqs (by rw [hrest.1, hstart]) (sound_len_pos hqs) hk (by omega)
            have := hB q rest1 rfl hqrun
            omega
      · injection hqr with e1 _
        subst e1
        rw [hk] at hq
        exact Bool.noConfusion hq

theorem stream_size_exact {P : List Nat} {N : Nat} (hP : P.length = N * 4)
    (hadj : ∀ x, x + 1 < N → px P x ≠ px P (x + 1)) :
    ∀ (ps : List Packet) (i : Nat), chained i ps N → (∀ p ∈ ps, p.sound P N) →
      (packet_stream ps).length = 4 * (N - i) + (N - i + 127) / 128 := by
  intro ps
  induction ps with
  | nil =>
    intro i hch _
    have hi : i = N := hch
    simp only [packet_stream, List.length_nil]
    omega
  | cons p rest ih =>
    intro i hch hs
    obtain ⟨hstart, hlen1, hrest⟩ := hch
    have hsp := hs p (List.mem_cons_self _ _)
    have hsrest : ∀ q ∈ rest, q.sound P N := fun q hq => hs q (List.mem_cons_of_mem _ hq)
    have hrec := ih (i + p.len) hrest hsrest
    have hk : p.is_run = false := by
      cases hk : p.is_run with
      | false => rfl
      | true =>
        obtain ⟨h1, h2⟩ := (sound_kind hsp).mp hk
        exact absurd h2.symm (hadj p.start h1)
    have hb := (packet_bytes_length hP hsp).2 hk
    obtain ⟨hN, h128, _, hraw⟩ := hsp
    obtain ⟨_, _, _, _, hstop⟩ := hraw hk
    have hS : (packet_stream (p :: rest)).length = p.bytes.length + (packet_stream rest).length := by
      simp only [packet_stream, List.length_append]
    rw [hS, hrec, hb]
    rcases hstop with h | h | ⟨h1, h2⟩
    · omega
    · omega
    · exact absurd h2 (hadj _ h1)

/-- C17. Worst-case size.  For a valid image of `N = W * H ≥ 1` pixels written
to a stream that accepts every byte, the bytes after the header number at most
`4 * N + ceil(N / 128)` and the whole file at most `18 + 4 * N + ceil(N / 128)`;
both bounds are met with equality when no two adjacent pixels of the BGRA
buffer are equal. -/
theorem worst_case_size (junk : Nat → Nat) (rgba : List Nat)
    (W H : Nat) (hW : 1 ≤ W ∧ W ≤ 65535) (hH : 1 ≤ H ∧ H ≤ 65535)
    (hr : rgba.length = W * H * 4) :
    ∃ out, write_tga_rle ⟨some junk, some none⟩ rgba W H = .ok out ∧
      (out.file.bytes.drop 18).length ≤ 4 * (W * H) + (W * H + 127) / 128 ∧
      out.file.bytes.length ≤ 18 + 4 * (W * H) + (W * H + 127) / 128 ∧
      ((∀ x, x + 1 < W * H → px out.mem.pixels x ≠ px out.mem.pixels (x + 1)) →
        (out.file.bytes.drop 18).length = 4 * (W * H) + (W * H + 127) / 128 ∧
        out.file.bytes.length = 18 + 4 * (W * H) + (W * H + 127) / 128) := by
  obtain ⟨pix, ps, hout, hlen, _, hch, hsound⟩ := write_tga_rle_spec junk none hW.2 hH.2 hr
  refine ⟨_, hout, ?_⟩
  simp only [put_bytes_unbounded, List.nil_append]
  rw [List.drop_left' (tga_header_length W H), List.length_append, tga_header_length]
  have hb := (stream_size_bound hlen ps 0 hch hsound).1
  refine ⟨by omega, by omega, fun hadj => ?_⟩
  have he := stream_size_exact hlen hadj ps 0 hch hsound
  rw [Nat.sub_zero] at he
  exact ⟨he, by omega⟩

/-- Instance of C17: 129 pixels in one row, no two adjacent ones equal; the
packets take `4 * 129 + 2 = 518` bytes.  And the 3x1 image
(1,2,3,4),(5,6,7,8),(1,2,3,4), whose packets take `4 * 3 + 1 = 13` bytes. -/
theorem worst_case_size_witness :
    ((1 ≤ 129 ∧ 129 ≤ 65535) ∧ (1 ≤ 1 ∧ 1 ≤ 65535)) ∧
    (∃ out, write_tga_rle ⟨some (fun _ => 0), some none⟩ (List.range (129 * 1 * 4)) 129 1 =
        .ok out ∧
      (out.file.bytes.drop 18).length ≤ 4 * (129 * 1) + (129 * 1 + 127) / 128 ∧
      out.file.bytes.length ≤ 18 + 4 * (129 * 1) + (129 * 1 + 127) / 128 ∧
      ((∀ x, x + 1 < 129 * 1 → px out.mem.pixels x ≠ px out.mem.pixels (x + 1)) →
        (out.file.bytes.drop 18).length = 4 * (129 * 1) + (129 * 1 + 127) / 128 ∧
        out.file.bytes.length = 18 + 4 * (129 * 1) + (129 * 1 + 127) / 128)) ∧
    (∃ out, write_tga_rle ⟨some (fun _ => 0), some none⟩
        [1, 2, 3, 4, 5, 6, 7, 8, 1, 2, 3, 4] 3 1 = .ok out ∧
      (out.file.bytes.drop 18).length = 4 * 3 + 1 ∧ out.file.bytes.length = 18 + 4 * 3 + 1) :=
  ⟨⟨⟨by decide, by decide⟩, ⟨by decide, by decide⟩⟩,
    worst_case_size (fun _ => 0) _ 129 1 ⟨by decide, by decide⟩
      ⟨by decide, by decide⟩ (List.length_range _),
    ⟨_, rfl, rfl, rfl⟩⟩

/-- C18. In-bounds access.  For an image with both dimensions in 1..65535 and
an input buffer of `W * H * 4` bytes, `write_tga_rle` never makes an access
outside a buffer, whatever `malloc` and `fopen` answer: its result is never
`MemoryFault`.  When both succeed it returns 1, the buffer built has
`W * H * 4` bytes and every packet's pixels `start .. start + len - 1` lie below
`W * H`.  The checks are exact: a read of `n` bytes at `off`, a load and a store
fault exactly when they leave the buffer, and `pixels_equal` faults exactly
when one of its two pixel indices is not below the pixel count. -/
theorem in_bounds_access (env : Env) (rgba : List Nat)
    (W H : Nat) (hW : 1 ≤ W ∧ W ≤ 65535) (hH : 1 ≤ H ∧ H ≤ 65535)
    (hr : rgba.length = W * H * 4) :
    write_tga_rle env rgba W H ≠ .error .MemoryFault ∧
    (env.heap ≠ none → env.sink ≠ none →
      ∃ out, write_tga_rle env rgba W H = .ok out ∧
        out.mem.pixels.length = W * H * 4 ∧
        ∀ p ∈ out.packets, 1 ≤ p.len ∧ p.start + p.len ≤ W * H) ∧
    (∀ (mem : List Nat) (off n : Nat),
      read_bytes mem off n = .error .MemoryFault ↔ mem.length < off + n) ∧
    (∀ (mem : List Nat) (off : Nat),
      load_byte mem off = .error .MemoryFault ↔ mem.length ≤ off) ∧
    (∀ (mem : List Nat) (off v : Nat),
      store_byte mem off v = .error .MemoryFault ↔ mem.length ≤ off) ∧
    (∀ (pixels : List Nat) (N a b : Nat), pixels.length = N * 4 → N ≤ 4294836225 →
      a < 4294967296 → b < 4294967296 →
      (pixels_equal pixels a b 4 = .error .MemoryFault ↔ ¬ (a < N ∧ b < N))) := by
  have hread : ∀ (mem : List Nat) (off n : Nat),
      read_bytes mem off n = .error .MemoryFault ↔ mem.length < off + n := by
    intro mem off n
    unfold read_bytes
    by_cases h : off + n ≤ mem.length
    · rw [if_pos h]
      exact ⟨fun e => Except.noConfusion e, fun h2 => by omega⟩
    · rw [if_neg h]
      exact ⟨fun _ => by omega, fun _ => rfl⟩
  refine ⟨?_, ?_, hread, ?_, ?_, ?_⟩
  · rcases write_tga_rle_outcome env hr with
      ⟨_, he⟩ | ⟨_, _, _, he⟩ | ⟨_, _, _, _, he⟩ | ⟨_, _, _, _, out, he⟩ <;>
    · rw [he]
      intro h
      first
        | exact Except.noConfusion h
        | exact TgaError.noConfusion (Except.error.inj h)
  · intro hheap hsink
    obtain ⟨heap, sink⟩ := env
    cases heap with
    | none => exact absurd rfl hheap
    | some junk =>
      cases sink with
      | none => exact absurd rfl hsink
      | some room =>
        obtain ⟨pix, ps, hout, hlen, _, _, hsound⟩ :=
          write_tga_rle_spec junk room hW.2 hH.2 hr
        exact ⟨_, hout, hlen, fun p hp => ⟨sound_len_pos (hsound p hp), (hsound p hp).1⟩⟩
  · intro mem off
    unfold load_byte
    by_cases h : off < mem.length
    · rw [List.getElem?_eq_getElem h]
      exact ⟨fun e => Except.noConfusion e, fun h2 => by omega⟩
    · rw [List.getElem?_eq_none (by omega)]
      exact ⟨fun _ => by omega, fun _ => rfl⟩
  · intro mem off v
    unfold store_byte
    by_cases h : off < mem.length
    · rw [if_pos h]
      exact ⟨fun e => Except.noConfusion e, fun h2 => by omega⟩
    · rw [if_neg h]
      exact ⟨fun _ => by omega, fun _ => rfl⟩
  · intro pixels N a b hP hN ha hb
    unfold pixels_equal
    rw [size_t_eq (show a * 4 < 18446744073709551616 by omega),
      size_t_eq (show b * 4 < 18446744073709551616 by omega)]
    by_cases h1 : a < N
    · rw [read_bytes_pixel hP h1]
      by_cases h2 : b < N
      · rw [read_bytes_pixel hP h2]
        exact ⟨fun e => Except.noConfusion e, fun h3 => absurd ⟨h1, h2⟩ h3⟩
      · have := (hread pixels (b * 4) 4).mpr (by omega)
        rw [this]
        exact ⟨fun _ h3 => h2 h3.2, fun _ => rfl⟩
    · have := (hread pixels (a * 4) 4).mpr (by omega)
      rw [this]
      exact ⟨fun _ h3 => h1 h3.1, fun _ => rfl⟩

/-- Instance of C18: a 3x2 image, with `malloc` and `fopen` succeeding. -/
theorem in_bounds_access_witness :
    ((1 ≤ 3 ∧ 3 ≤ 65535) ∧ (1 ≤ 2 ∧ 2 ≤ 65535)) ∧
    write_tga_rle ⟨some (fun _ => 0), some none⟩
      [9, 9, 9, 9, 1, 1, 1, 1, 1, 1, 1, 1, 2, 2, 2, 2, 3, 3, 3, 3, 3, 3, 3, 3] 3 2 ≠
        .error .MemoryFault ∧
    ∃ out, write_tga_rle ⟨some (fun _ => 0), some none⟩
        [9, 9, 9, 9, 1, 1, 1, 1, 1, 1, 1, 1, 2, 2, 2, 2, 3, 3, 3, 3, 3, 3, 3, 3] 3 2 = .ok out ∧
      out.mem.pixels.length = 3 * 2 * 4 ∧
      ∀ p ∈ out.packets, 1 ≤ p.len ∧ p.start + p.len ≤ 3 * 2 :=
  have h := in_bounds_access ⟨some (fun _ => 0), some none⟩
    [9, 9, 9, 9, 1, 1, 1, 1, 1, 1, 1, 1, 2, 2, 2, 2, 3, 3, 3, 3, 3, 3, 3, 3] 3 2
    ⟨by decide, by decide⟩ ⟨by decide, by decide⟩ rfl
  ⟨⟨⟨by decide, by decide⟩, ⟨by decide, by decide⟩⟩, h.1,
    h.2.1 (fun e => Option.noConfusion e) (fun e => Option.noConfusion e)⟩

/-- C19. Termination.  For a valid image of `N = W * H` pixels the packing loop
ends: the fuel `N + 1` that `write_tga_rle` gives it is not exhausted, so it
makes at most `N` iterations, and it stops with `i = N`.  Each iteration writes
one packet; the packet written when `i` has a given value starts at that value,
which is the sum of the lengths of the packets before it, and its length is at
least 1 and at most `N - i`.  Any larger fuel gives the same result. -/
theorem rle_loop_terminates (junk : Nat → Nat) (room : Option Nat) (rgba : List Nat)
    (W H : Nat) (hW : 1 ≤ W ∧ W ≤ 65535) (hH : 1 ≤ H ∧ H ≤ 65535)
    (hr : rgba.length = W * H * 4) :
    ∃ out, write_tga_rle ⟨some junk, some room⟩ rgba W H = .ok out ∧
      out.last_i = W * H ∧
      out.packets.length ≤ W * H ∧
      (∀ (l1 : List Packet) (p : Packet) (l2 : List Packet), out.packets = l1 ++ p :: l2 →
        p.start = (l1.map Packet.len).sum ∧ 1 ≤ p.len ∧ p.len ≤ W * H - p.start) ∧
      (∀ (fuel : Nat) (fp : FILE), W * H < fuel →
        rle_loop out.mem.pixels (W * H) 4 fuel 0 fp [] =
          .ok (W * H, fp.put_bytes (packet_stream out.packets), out.packets)) := by
  obtain ⟨pix, ps, hout, hlen, _, hch, hsound⟩ := write_tga_rle_spec junk room hW.2 hH.2 hr
  have hWH := dim_mul_le hW.2 hH.2
  refine ⟨_, hout, rfl, ?_, ?_, ?_⟩
  · have := (chained_count_bounds ps 0 hch (fun p hp => (hsound p hp).2.1)).1
    show ps.length ≤ W * H
    omega
  · intro l1 p l2 hsplit
    replace hsplit : ps = l1 ++ p :: l2 := hsplit
    have hs := hsound p (by rw [hsplit]; simp)
    have hst := chained_start l1 0 p l2 (hsplit ▸ hch)
    have h1 := sound_len_pos hs
    have hN := hs.1
    exact ⟨by omega, h1, by omega⟩
  · intro fuel fp hfuel
    obtain ⟨qs, hqs, hqch, hqsound⟩ :=
      rle_loop_spec (P := pix) (N := W * H) hlen hWH fuel 0 fp [] (by omega) (by omega)
    have hsame : qs = ps := chained_unique qs ps 0 hqch hch hqsound hsound
    subst hsame
    show rle_loop pix (W * H) 4 fuel 0 fp [] = _
    rw [hqs, List.nil_append]

/-- Instance of C19: 130 equal pixels in one row; the loop makes two
iterations. -/
theorem rle_loop_terminates_witness :
    ((1 ≤ 130 ∧ 130 ≤ 65535) ∧ (1 ≤ 1 ∧ 1 ≤ 65535)) ∧
    ∃ out, write_tga_rle ⟨some (fun _ => 0), some none⟩
        (List.replicate (130 * 1 * 4) 7) 130 1 = .ok out ∧
      out.last_i = 130 * 1 ∧
      out.packets.length ≤ 130 * 1 ∧
      (∀ (l1 : List Packet) (p : Packet) (l2 : List Packet), out.packets = l1 ++ p :: l2 →
        p.start = (l1.map Packet.len).sum ∧ 1 ≤ p.len ∧ p.len ≤ 130 * 1 - p.start) ∧
      (∀ (fuel : Nat) (fp : FILE), 130 * 1 < fuel →
        rle_loop out.mem.pixels (130 * 1) 4 fuel 0 fp [] =
          .ok (130 * 1, fp.put_bytes (packet_stream out.packets), out.packets)) :=
  ⟨⟨⟨by decide, by decide⟩, ⟨by decide, by decide⟩⟩,
    rle_loop_terminates (fun _ => 0) none _ 130 1 ⟨by decide, by decide⟩
      ⟨by decide, by decide⟩ (List.length_replicate _ _)⟩

end TgaRle
